import Mathlib

/-!
# v2ray-core: task combinator engine and its relay consumers

A shallow embedding of `common/task/task.go`, of the relay tails of
`proxy/dokodemo/dokodemo.go` and `proxy/mtproto/server.go`, and of the
configuration checks of those two proxies.

* A Go `Task` (`func() error`) is a state transformer on a world `σ` that
  may fail to return: `σ → Option (Option ε × σ)`.  The outer `none` means
  "does not return", the inner `none` is Go's `nil` error.
* `executeParallel` is a step function on an explicit state (semaphore,
  single-slot failure channel, goroutine table, controller position); the
  interleaving chosen by the Go scheduler is an explicit list of actions.
* In that step function the body of a task is one step (`call i`), enabled in
  the worlds in which the task returns: the bodies of two tasks do not
  interleave, but a task may have to wait for the effect of a sibling. The
  world is threaded through the calls in the order the schedule makes them.
  Goroutines still running when the controller returns go on afterwards; the
  world `executeParallel` yields is the one seen at the end of the schedule.
* Code declared outside the sources (`semaphore`, `compare.BytesAll`,
  `task.Close`, `pipe.CloseError`, `Config.GetPredefinedAddress`) is either
  modelled from its description, and marked so, or taken as a parameter.
-/

namespace TaskEngine

/-! ## Data model -/

/-- A Go `Task`: run in world `s`, it either does not return (`none`) or
returns an error value (`none` is `nil`) together with the new world. -/
abbrev Task (σ ε : Type) := σ → Option (Option ε × σ)

/-- The part of a `context.Context` the engine looks at: whether somebody can
still cancel it, and the current value of `ctx.Err()` (`none` while `Done` is
not closed). -/
structure Context (ε : Type) where
  cancellable : Bool
  err : Option ε
deriving DecidableEq, Repr

/-- The value of `context.Background()`: never cancelled. -/
def Context.background {ε : Type} : Context ε := ⟨false, none⟩

/-- The struct `executionContext`; a nil `ctx`, `onSuccess` or `onFailure` is
`none`. -/
structure executionContext (σ ε : Type) where
  ctx : Option (Context ε)
  tasks : List (Task σ ε)
  onSuccess : Option (Task σ ε)
  onFailure : Option (Task σ ε)

/-- The zero value `var c executionContext`. -/
def executionContext.zero {σ ε : Type} : executionContext σ ε := ⟨none, [], none, none⟩

/-- The type `ExecutionOption func(*executionContext)`. -/
abbrev ExecutionOption (σ ε : Type) := executionContext σ ε → executionContext σ ε

/-! ## The semaphore -/

/-- Modelled from the spec: `common/signal/semaphore` is not among the sources.
A pool with declared capacity and a number of available permits. -/
structure Semaphore where
  capacity : Nat
  available : Nat
deriving DecidableEq, Repr

/-- Modelled from the spec: `semaphore.New(capacity)`, a pool of `capacity`
permits, all available. -/
def Semaphore.New (n : Nat) : Semaphore := ⟨n, n⟩

/-- Modelled from the spec: consuming the signal of `Wait()`. It is ready only
when a permit is available, and consuming it decrements availability by one. -/
def Semaphore.Wait (s : Semaphore) : Option Semaphore :=
  if 0 < s.available then some { s with available := s.available - 1 } else none

/-- Modelled from the spec: `Signal()` returns one permit to the pool; it must
not push availability above the capacity, so it is not enabled then. -/
def Semaphore.Signal (s : Semaphore) : Option Semaphore :=
  if s.available < s.capacity then some { s with available := s.available + 1 } else none

/-! ## `executeParallel` as a step function -/

/-- Where one goroutine `go func(f Task)` stands: before `err := f()`, after
it (holding `err`), or finished (after `s.Signal()` or the send-or-drop). -/
inductive GState (ε : Type) where
  | running
  | returned (err : Option ε)
  | exited (err : Option ε)
deriving DecidableEq, Repr

/-- Where the body of `executeParallel` stands: in the launch loop at index
`j`, in the collecting loop at index `i`, or returned with `r`. -/
inductive Ctrl (ε : Type) where
  | launching (j : Nat)
  | waiting (i : Nat)
  | finished (r : Option ε)
deriving DecidableEq, Repr

/-- The state of one call of `executeParallel`. `sent` is a history variable,
not a variable of the code: the errors the channel `done` has accepted so far,
in order. -/
structure PState (σ ε : Type) where
  world : σ
  sem : Semaphore
  done : Option ε
  sent : List ε
  ctxErr : Option ε
  gor : List (GState ε)
  ctrl : Ctrl ε

/-- One scheduling decision. `launch`: one turn of the first loop. `advance`:
a loop whose condition is false is left. `call i` and `report i`: the two
halves of goroutine `i`. `recvDone`, `recvCtx`, `recvPermit`: the three cases
of the controller's `select`. `cancel e`: somebody outside the engine cancels
the context, which then reports `e`. -/
inductive Action (ε : Type) where
  | launch
  | advance
  | call (i : Nat)
  | report (i : Nat)
  | recvDone
  | recvCtx
  | recvPermit
  | cancel (e : ε)
deriving DecidableEq, Repr

/-- The state on entry: `n := len(tasks)`, `s := semaphore.New(n)`,
`done := make(chan error, 1)`. -/
def PState.start {σ ε : Type} (ctx : Context ε) (tasks : List (Task σ ε)) (w : σ) : PState σ ε :=
  { world := w, sem := Semaphore.New tasks.length, done := none, sent := [], ctxErr := ctx.err,
    gor := [], ctrl := Ctrl.launching 0 }

/-- One step of `executeParallel`; `none` when the action is not enabled. -/
def step {σ ε : Type} (ctx : Context ε) (tasks : List (Task σ ε)) (a : Action ε)
    (st : PState σ ε) : Option (PState σ ε) :=
  match a with
  | Action.launch =>
    match st.ctrl with
    | Ctrl.launching j =>
      if j < tasks.length then
        match st.sem.Wait with
        | some sem' => some { st with sem := sem', gor := st.gor ++ [GState.running],
                                      ctrl := Ctrl.launching (j + 1) }
        | none => none
      else none
    | _ => none
  | Action.advance =>
    match st.ctrl with
    | Ctrl.launching j =>
      if j < tasks.length then none else some { st with ctrl := Ctrl.waiting 0 }
    | Ctrl.waiting i =>
      if i < tasks.length then none else some { st with ctrl := Ctrl.finished none }
    | Ctrl.finished _ => none
  | Action.call i =>
    match st.gor[i]?, tasks[i]? with
    | some GState.running, some f =>
      match f st.world with
      | some (err, w') => some { st with world := w', gor := st.gor.set i (GState.returned err) }
      | none => none
    | _, _ => none
  | Action.report i =>
    match st.gor[i]? with
    | some (GState.returned none) =>
      match st.sem.Signal with
      | some sem' => some { st with sem := sem', gor := st.gor.set i (GState.exited none) }
      | none => none
    | some (GState.returned (some err)) =>
      match st.done with
      | none => some { st with done := some err, sent := st.sent ++ [err],
                               gor := st.gor.set i (GState.exited (some err)) }
      | some _ => some { st with gor := st.gor.set i (GState.exited (some err)) }
    | _ => none
  | Action.recvDone =>
    match st.ctrl, st.done with
    | Ctrl.waiting i, some err =>
      if i < tasks.length then some { st with done := none, ctrl := Ctrl.finished (some err) }
      else none
    | _, _ => none
  | Action.recvCtx =>
    match st.ctrl, st.ctxErr with
    | Ctrl.waiting i, some err =>
      if i < tasks.length then some { st with ctrl := Ctrl.finished (some err) } else none
    | _, _ => none
  | Action.recvPermit =>
    match st.ctrl with
    | Ctrl.waiting i =>
      if i < tasks.length then
        match st.sem.Wait with
        | some sem' => some { st with sem := sem', ctrl := Ctrl.waiting (i + 1) }
        | none => none
      else none
    | _ => none
  | Action.cancel e =>
    match ctx.cancellable, st.ctxErr with
    | true, none => some { st with ctxErr := some e }
    | _, _ => none

/-- Follow a schedule; `none` as soon as an action is not enabled. -/
def runSched {σ ε : Type} (ctx : Context ε) (tasks : List (Task σ ε)) :
    List (Action ε) → PState σ ε → Option (PState σ ε)
  | [], st => some st
  | a :: rest, st =>
    match step ctx tasks a st with
    | some st' => runSched ctx tasks rest st'
    | none => none

/-- The function `executeParallel` under the interleaving `sched`: the value
the controller returned and the world seen then; `none` when `sched` is not
a run of the code that reaches a `return`. -/
def executeParallel {σ ε : Type} (sched : List (Action ε)) (ctx : Context ε)
    (tasks : List (Task σ ε)) : Task σ ε := fun w =>
  match runSched ctx tasks sched (PState.start ctx tasks w) with
  | some st =>
    match st.ctrl with
    | Ctrl.finished r => some (r, st.world)
    | _ => none
  | none => none

/-! ## The sequential engine -/

/-- The function `execute`: run the tasks in order, return the first error. -/
def execute {σ ε : Type} : List (Task σ ε) → Task σ ε
  | [], s => some (none, s)
  | task :: rest, s =>
    match task s with
    | none => none
    | some (some err, s') => some (some err, s')
    | some (none, s') => execute rest s'

/-- The method `executionContext.executeTask`; `sched` is the interleaving used
should the parallel path be entered. -/
def executeTask {σ ε : Type} (sched : List (Action ε)) (c : executionContext σ ε) : Task σ ε :=
  fun s =>
  if c.tasks.length = 0 then some (none, s)
  else
    match c.tasks, c.ctx with
    | [t], none => t s
    | tasks, none => executeParallel sched Context.background tasks s
    | tasks, some ctx => executeParallel sched ctx tasks s

/-- The method `executionContext.run`. -/
def run {σ ε : Type} (sched : List (Action ε)) (c : executionContext σ ε) : Task σ ε :=
  fun s =>
  match executeTask sched c s with
  | none => none
  | some (err, s1) =>
    match err, c.onSuccess, c.onFailure with
    | none, some onS, _ => onS s1
    | some _, _, some onF => onF s1
    | _, _, _ => some (err, s1)

/-- The option `WithContext`. -/
def WithContext {σ ε : Type} (ctx : Option (Context ε)) : ExecutionOption σ ε :=
  fun c => { c with ctx := ctx }

/-- The option `Parallel`. -/
def Parallel {σ ε : Type} (tasks : List (Task σ ε)) : ExecutionOption σ ε :=
  fun c => { c with tasks := c.tasks ++ tasks }

/-- The option `Sequential`. -/
def Sequential {σ ε : Type} (tasks : List (Task σ ε)) : ExecutionOption σ ε :=
  fun c =>
  match tasks with
  | [] => c
  | [t] => { c with tasks := c.tasks ++ [t] }
  | _ => { c with tasks := c.tasks ++ [fun s => execute tasks s] }

/-- The option `OnSuccess`; a nil func is `none`. -/
def OnSuccess {σ ε : Type} (task : Option (Task σ ε)) : ExecutionOption σ ε :=
  fun c => { c with onSuccess := task }

/-- The option `OnFailure`; a nil func is `none`. -/
def OnFailure {σ ε : Type} (task : Option (Task σ ε)) : ExecutionOption σ ε :=
  fun c => { c with onFailure := task }

/-- The function `Run`: fold the options into a zero `executionContext`, return
the closure over `c.run()`. -/
def Run {σ ε : Type} (sched : List (Action ε)) (opts : List (ExecutionOption σ ε)) : Task σ ε :=
  let c := opts.foldl (fun c opt => opt c) executionContext.zero
  fun s => run sched c s

/-- The function `Single`. -/
def Single {σ ε : Type} (sched : List (Action ε)) (task : Task σ ε)
    (opts : List (ExecutionOption σ ε)) : Task σ ε :=
  Run sched ([Sequential [task]] ++ opts)

/-! ## Observing invocations -/

/-- A task that records `tag` in a log next to the world each time it is
invoked and otherwise behaves as `t`. -/
def probe {σ ε τ : Type} (tag : τ) (t : Task σ ε) : Task (σ × List τ) ε :=
  fun s =>
  match t s.1 with
  | none => none
  | some (err, w) => some (err, (w, s.2 ++ [tag]))

/-- The two continuations of an execution, as tags for `probe`. -/
inductive Continuation where
  | onSuccess
  | onFailure
deriving DecidableEq, Repr

/-- The tasks of a list, each one recording its position, counted from `b`. -/
def tracedFrom {σ ε : Type} : Nat → List (Task σ ε) → List (Task (σ × List Nat) ε)
  | _, [] => []
  | b, t :: rest => probe b t :: tracedFrom (b + 1) rest

/-- The tasks of a list, each one recording its position. -/
def traced {σ ε : Type} (ts : List (Task σ ε)) : List (Task (σ × List Nat) ε) :=
  tracedFrom 0 ts

/-! ## Quantities and invariants of `executeParallel` -/

/-- The error a goroutine holds once `f()` has returned. -/
def GState.result {ε : Type} : GState ε → Option (Option ε)
  | GState.running => none
  | GState.returned err => some err
  | GState.exited err => some err

/-- One for a goroutine that has called `s.Signal()`. -/
def GState.signalled {ε : Type} : GState ε → Nat
  | GState.exited none => 1
  | _ => 0

/-- The steps a goroutine still has to take. -/
def GState.todo {ε : Type} : GState ε → Nat
  | GState.running => 2
  | GState.returned _ => 1
  | GState.exited _ => 0

/-- The number of goroutines that have called `s.Signal()`. -/
def okExits {ε : Type} (gor : List (GState ε)) : Nat := (gor.map GState.signalled).sum

/-- The steps the controller and the goroutines not yet started still have
to take. -/
def Ctrl.todo {ε : Type} (n : Nat) : Ctrl ε → Nat
  | Ctrl.launching j => 4 * (n - j) + n + 2
  | Ctrl.waiting i => (n - i) + 1
  | Ctrl.finished _ => 0

/-- A bound on the number of steps still possible from a state. -/
def PState.fuel {σ ε : Type} (n : Nat) (st : PState σ ε) : Nat :=
  Ctrl.todo n st.ctrl + (st.gor.map GState.todo).sum + (if st.ctxErr.isNone then 1 else 0)

/-- The permit accounting of the controller: the permits it has taken are the
ones missing from the semaphore, up to those given back by `Signal`. -/
def ctrlInv {ε : Type} (n : Nat) (sem : Semaphore) (gor : List (GState ε)) : Ctrl ε → Prop
  | Ctrl.launching j => j = gor.length ∧ sem.available + j = n + okExits gor
  | Ctrl.waiting i => gor.length = n ∧ i ≤ n ∧ sem.available + i = okExits gor
  | Ctrl.finished none => gor.length = n ∧ okExits gor = n
  | Ctrl.finished (some _) => True

/-- The invariant of `executeParallel`. -/
structure Inv {σ ε : Type} (tasks : List (Task σ ε)) (st : PState σ ε) : Prop where
  cap : st.sem.capacity = tasks.length
  len : st.gor.length ≤ tasks.length
  ctrl : ctrlInv tasks.length st.sem st.gor st.ctrl
  done : ∀ e, st.done = some e → ∃ i : Nat, st.gor[i]? = some (GState.exited (some e))
  fin : ∀ e, st.ctrl = Ctrl.finished (some e) →
    (∃ i : Nat, st.gor[i]? = some (GState.exited (some e))) ∨ st.ctxErr = some e
  first : ∀ (i : Nat) e, st.gor[i]? = some (GState.exited (some e)) →
    st.done.isSome ∨ ∃ e', st.ctrl = Ctrl.finished (some e')
  res : ∀ (i : Nat) g r, st.gor[i]? = some g → g.result = some r →
    ∃ f s s', tasks[i]? = some f ∧ f s = some (r, s')
  sentFin : ∀ e, st.ctrl = Ctrl.finished (some e) →
    st.sent.head? = some e ∨ st.ctxErr = some e
  sentLive : (∀ e, st.ctrl ≠ Ctrl.finished (some e)) → st.sent = st.done.toList

/-- The error goroutine `i` holds, if it has been launched and `f()` has
returned. -/
def resultAt {ε : Type} (gor : List (GState ε)) (i : Nat) : Option (Option ε) :=
  match gor[i]? with
  | some g => g.result
  | none => none

/-- `Replays tasks gor order s s'`: starting in world `s`, calling the tasks at
the positions of `order` one after the other, each in the world the one before
left and each returning the error the goroutine table `gor` holds for it, ends
in world `s'`. -/
def Replays {σ ε : Type} (tasks : List (Task σ ε)) (gor : List (GState ε)) :
    List Nat → σ → σ → Prop
  | [], s, s' => s = s'
  | i :: rest, s, s' =>
    ∃ f r s1, tasks[i]? = some f ∧ f s = some (r, s1) ∧ resultAt gor i = some r ∧
      Replays tasks gor rest s1 s'

/-- The world of a state is what the calls made so far have made of the world
on entry `w0`: there is an order, without repetition, of exactly the goroutines
whose `f()` has returned, whose replay from `w0` ends in the current world. -/
def Hist {σ ε : Type} (tasks : List (Task σ ε)) (w0 : σ) (st : PState σ ε) : Prop :=
  ∃ order : List Nat, order.Nodup ∧
    (∀ i : Nat, i ∈ order ↔ (resultAt st.gor i).isSome = true) ∧
    Replays tasks st.gor order w0 st.world

/-- The tasks terminate, in a state: once all goroutines are launched, if some
of them are still before `f()` then for one of these `f()` returns in the
current world. -/
def Live {σ ε : Type} (tasks : List (Task σ ε)) (st : PState σ ε) : Prop :=
  st.gor.length = tasks.length → (∃ i : Nat, st.gor[i]? = some GState.running) →
    ∃ (k : Nat) (f : Task σ ε), st.gor[k]? = some GState.running ∧ tasks[k]? = some f ∧
      (f st.world).isSome = true

/-- An example task on a counter: it returns nil, but only once the counter
is positive. -/
def waitsForFlag : Task Nat Nat := fun s => if 0 < s then some (none, s) else none

/-- An example task on a counter: it adds one and returns nil. -/
def setsFlag : Task Nat Nat := fun s => some (none, s + 1)

end TaskEngine

/-! ## Shared network types -/

namespace Net

/-- Modelled from the spec: the enum `net.Network` is declared outside the
sources; these are the values the sources name, plus the zero value. -/
inductive Network where
  | Unknown
  | TCP
  | UDP
deriving DecidableEq, Repr

/-- The struct `net.Destination`; an address is identified by the literal it
was parsed from. -/
structure Destination where
  Network : Network
  Address : String
  Port : Nat
deriving DecidableEq, Repr

end Net

/-! ## `proxy/dokodemo` -/

namespace Dokodemo

open TaskEngine

/-- The message `NetworkList` of the configuration. -/
structure NetworkList where
  Network : List Net.Network
deriving DecidableEq, Repr

/-- The fields of `Config` the sources read; a nil `NetworkList` is `none`. -/
structure Config (α : Type) where
  Address : Option α
  Port : Nat
  NetworkList : Option NetworkList
  Networks : List Net.Network
  Timeout : Nat
  FollowRedirect : Bool
  UserLevel : Nat

/-- The struct `DokodemoDoor`; nil fields are `none`. -/
structure DokodemoDoor (α π : Type) where
  policyManager : Option π
  config : Option (Config α)
  address : Option α
  port : Nat

/-- The method `DokodemoDoor.Init`: the receiver after the call and the error
returned. `GetPredefinedAddress` is the method of `Config` of that name, which
is declared outside the sources. `net.Port` is a `uint16`. -/
def DokodemoDoor.Init {α π : Type} (GetPredefinedAddress : Config α → Option α)
    (d : DokodemoDoor α π) (config : Config α) (pm : π) : DokodemoDoor α π × Option String :=
  if (match config.NetworkList with
      | none => true
      | some nl => nl.Network.length == 0) && config.Networks.length == 0 then
    (d, some "no network specified")
  else
    ({ policyManager := some pm, config := some config,
       address := GetPredefinedAddress config, port := config.Port % 65536 }, none)

/-- The method `DokodemoDoor.Network`; `none` is a nil pointer dereference. -/
def DokodemoDoor.Network {α π : Type} (d : DokodemoDoor α π) : Option (List Net.Network) :=
  match d.config with
  | none => none
  | some config =>
    if config.Networks.length > 0 then some config.Networks
    else
      match config.NetworkList with
      | none => none
      | some nl => some nl.Network

/-- The options handed to `task.Run` at the end of `DokodemoDoor.Process`.
`closeWriter` stands for `task.Close(link.Writer)`. -/
def relayOptions {σ ε : Type} (ctx : Context ε) (schedRequest : List (Action ε))
    (requestDone responseDone closeWriter : Task σ ε) : List (ExecutionOption σ ε) :=
  [WithContext (some ctx),
   Parallel [Single schedRequest requestDone [OnSuccess (some closeWriter)], responseDone]]

/-- The end of `DokodemoDoor.Process`, from `task.Run` on. `closeErrorReader`
and `closeErrorWriter` stand for `pipe.CloseError` on the two ends of the link,
`connectionEnds` for `newError("connection ends").Base`. -/
def relay {σ ε : Type} (sched schedRequest : List (Action ε)) (ctx : Context ε)
    (requestDone responseDone closeWriter : Task σ ε)
    (closeErrorReader closeErrorWriter : σ → σ) (connectionEnds : ε → ε) : Task σ ε :=
  fun s =>
  match Run sched (relayOptions ctx schedRequest requestDone responseDone closeWriter) s with
  | none => none
  | some (some err, s1) => some (some (connectionEnds err), closeErrorWriter (closeErrorReader s1))
  | some (none, s1) => some (none, s1)

end Dokodemo

/-! ## `proxy/mtproto` -/

namespace Mtproto

open TaskEngine

/-- The variable `dcList`. -/
def dcList : List String :=
  ["149.154.175.50", "149.154.167.51", "149.154.175.100", "149.154.167.91", "149.154.171.5"]

/-- A `[4]byte`. -/
structure Byte4 where
  b0 : Nat
  b1 : Nat
  b2 : Nat
  b3 : Nat
deriving DecidableEq, Repr

/-- The slice `c[:]`. -/
def Byte4.slice (c : Byte4) : List Nat := [c.b0, c.b1, c.b2, c.b3]

/-- The function `isValidConnectionType`. `BytesAll` is `compare.BytesAll`,
which is declared outside the sources. -/
def isValidConnectionType (BytesAll : List Nat → Nat → Bool) (c : Byte4) : Bool :=
  if BytesAll c.slice 0xef then true
  else if BytesAll c.slice 0xee then true
  else false

/-- How `Server.Process` leaves its header checks: with one of its two errors,
with an index out of range, or by calling `dispatcher.Dispatch(ctx, dest)`. -/
inductive HeaderStep where
  | invalidConnectionType (ct : Byte4)
  | invalidDatacenterID (dcID : Nat)
  | indexOutOfRange
  | dispatch (dest : Net.Destination)
deriving DecidableEq, Repr

/-- The part of `Server.Process` from `ct := auth.ConnectionType()` to the
call of `dispatcher.Dispatch`; `dcID` is the `uint16` that
`auth.DataCenterID()` returned. -/
def Server.Process (BytesAll : List Nat → Nat → Bool) (ct : Byte4) (dcID : Nat) : HeaderStep :=
  if !isValidConnectionType BytesAll ct then HeaderStep.invalidConnectionType ct
  else if dcID ≥ dcList.length % 65536 then HeaderStep.invalidDatacenterID dcID
  else
    match dcList[dcID]? with
    | none => HeaderStep.indexOutOfRange
    | some addr => HeaderStep.dispatch { Network := Net.Network.TCP, Address := addr, Port := 443 }

/-- The options handed to `task.Run` at the end of `Server.Process`.
`closeWriter` stands for `task.Close(link.Writer)`. -/
def relayOptions {σ ε : Type} (ctx : Context ε) (schedResponse : List (Action ε))
    (request response closeWriter : Task σ ε) : List (ExecutionOption σ ε) :=
  [WithContext (some ctx),
   Parallel [request, Single schedResponse response [OnSuccess (some closeWriter)]]]

/-- The end of `Server.Process`, from `task.Run` on. -/
def relay {σ ε : Type} (sched schedResponse : List (Action ε)) (ctx : Context ε)
    (request response closeWriter : Task σ ε)
    (closeErrorReader closeErrorWriter : σ → σ) (connectionEnds : ε → ε) : Task σ ε :=
  fun s =>
  match Run sched (relayOptions ctx schedResponse request response closeWriter) s with
  | none => none
  | some (some err, s1) => some (some (connectionEnds err), closeErrorWriter (closeErrorReader s1))
  | some (none, s1) => some (none, s1)

end Mtproto

/-! # Theorems -/

namespace TaskEngine

/-! ## The sequential engine -/

theorem execute_single {σ ε : Type} (t : Task σ ε) (s : σ) : execute [t] s = t s := by
  unfold execute
  cases h : t s with
  | none => rfl
  | some p =>
    obtain ⟨r, s'⟩ := p
    cases r with
    | none => simp [execute]
    | some e => rfl

theorem run_no_continuation {σ ε : Type} (sched : List (Action ε)) (c : executionContext σ ε)
    (hS : c.onSuccess = none) (hF : c.onFailure = none) (s : σ) :
    run sched c s = executeTask sched c s := by
  unfold run
  cases h : executeTask sched c s with
  | none => rfl
  | some p =>
    obtain ⟨r, s'⟩ := p
    cases r <;> simp [hS, hF]

theorem Run_Sequential {σ ε : Type} (sched : List (Action ε)) (ts : List (Task σ ε)) (s : σ) :
    Run sched [Sequential ts] s = execute ts s := by
  show run sched (Sequential ts executionContext.zero) s = execute ts s
  match ts with
  | [] =>
    rw [run_no_continuation _ _ rfl rfl]
    rfl
  | [t] =>
    rw [run_no_continuation _ _ rfl rfl, execute_single]
    rfl
  | a :: b :: rest =>
    rw [run_no_continuation _ _ rfl rfl]
    rfl

theorem tracedFrom_length {σ ε : Type} (ts : List (Task σ ε)) :
    ∀ b : Nat, (tracedFrom b ts).length = ts.length := by
  induction ts with
  | nil => intro b; rfl
  | cons t rest ih => intro b; simp [tracedFrom, ih]

theorem execute_traced_fail {σ ε : Type} (ts : List (Task σ ε)) :
    ∀ (b : Nat) (ws : Nat → σ) (log : List Nat) (i : Nat) (t : Task σ ε) (e : ε) (w' : σ),
      (∀ (j : Nat) (u : Task σ ε), j < i → ts[j]? = some u → u (ws j) = some (none, ws (j + 1))) →
      ts[i]? = some t → t (ws i) = some (some e, w') →
      execute (tracedFrom b ts) (ws 0, log) = some (some e, (w', log ++ List.range' b (i + 1))) := by
  induction ts with
  | nil => intro b ws log i t e w' _ hi; simp at hi
  | cons t0 rest ih =>
    intro b ws log i t e w' hpre hi ht
    cases i with
    | zero =>
      simp at hi
      subst hi
      simp [tracedFrom, execute, probe, ht]
    | succ i' =>
      have h0 : t0 (ws 0) = some (none, ws 1) := hpre 0 t0 (Nat.succ_pos _) (by simp)
      have hrest := ih (b + 1) (fun k => ws (k + 1)) (log ++ [b]) i' t e w'
        (fun j u hj hu => hpre (j + 1) u (Nat.succ_lt_succ hj) (by simpa using hu))
        (by simpa using hi) ht
      simp only [tracedFrom, execute, probe, h0]
      rw [hrest]
      simp [List.range'_succ]

theorem execute_traced_ok {σ ε : Type} (ts : List (Task σ ε)) :
    ∀ (b : Nat) (ws : Nat → σ) (log : List Nat),
      (∀ (j : Nat) (u : Task σ ε), ts[j]? = some u → u (ws j) = some (none, ws (j + 1))) →
      execute (tracedFrom b ts) (ws 0, log)
        = some (none, (ws ts.length, log ++ List.range' b ts.length)) := by
  induction ts with
  | nil => intro b ws log _; simp [tracedFrom, execute]
  | cons t0 rest ih =>
    intro b ws log hall
    have h0 : t0 (ws 0) = some (none, ws 1) := hall 0 t0 (by simp)
    have hrest := ih (b + 1) (fun k => ws (k + 1)) (log ++ [b])
      (fun j u hu => hall (j + 1) u (by simpa using hu))
    simp only [tracedFrom, execute, probe, h0]
    rw [hrest]
    simp [List.range'_succ]

end TaskEngine

namespace TaskEngine

/-! ## Claims about the sequential engine -/

/-- C1: run through `Sequential`, a list of at least two tasks is invoked in
order and stops at the first failure. If task `i` is the first one to return an
error `e` (all earlier ones returned nil), the result is `e` and the log of
invocations is `0, 1, ..., i`: each task up to `i` once, none after it. If no
task fails the result is nil and the log is `0, ..., k-1`. -/
theorem C1_sequential_stops_at_first_failure {σ ε : Type} (ts : List (Task σ ε))
    (hk : 2 ≤ ts.length) (sched : List (Action ε)) (ws : Nat → σ) (log : List Nat) :
    (∀ (i : Nat) (t : Task σ ε) (e : ε) (w' : σ),
      (∀ (j : Nat) (u : Task σ ε), j < i → ts[j]? = some u → u (ws j) = some (none, ws (j + 1))) →
      ts[i]? = some t → t (ws i) = some (some e, w') →
      Run sched [Sequential (traced ts)] (ws 0, log)
        = some (some e, (w', log ++ List.range (i + 1)))) ∧
    ((∀ (j : Nat) (u : Task σ ε), ts[j]? = some u → u (ws j) = some (none, ws (j + 1))) →
      Run sched [Sequential (traced ts)] (ws 0, log)
        = some (none, (ws ts.length, log ++ List.range ts.length))) ∧
    (Sequential (traced ts) executionContext.zero).tasks = [fun s => execute (traced ts) s] := by
  refine ⟨?_, ?_, ?_⟩
  · intro i t e w' hpre hi ht
    rw [Run_Sequential, List.range_eq_range']
    exact execute_traced_fail ts 0 ws log i t e w' hpre hi ht
  · intro hall
    rw [Run_Sequential, List.range_eq_range']
    exact execute_traced_ok ts 0 ws log hall
  · have hlen : 2 ≤ (traced ts).length := by
      unfold traced
      rw [tracedFrom_length]
      exact hk
    match h : traced ts, hlen with
    | a :: b :: rest, _ => rfl

/-- Three tasks on a counter: the first adds one, the second fails with error
7, the third adds ten. -/
theorem C1_witness :
    Run ([] : List (Action Nat))
        [Sequential (traced [fun (s : Nat) => some (none, s + 1),
                             fun (s : Nat) => some (some 7, s),
                             fun (s : Nat) => some (none, s + 10)])] (0, [])
      = some (some 7, (1, [0, 1])) :=
  (C1_sequential_stops_at_first_failure
      [fun (s : Nat) => some (none, s + 1), fun (s : Nat) => some (some 7, s),
       fun (s : Nat) => some (none, s + 10)]
      (by decide) [] (fun j => j) []).1 1 (fun (s : Nat) => some (some 7, s)) 7 1
    (by
      intro j u hj hu
      have hj0 : j = 0 := by omega
      subst hj0
      simp at hu
      subst hu
      rfl)
    rfl rfl

/-- C7: with no bound context and no continuation, `Run(Sequential(ts))` is
`execute(ts)` whatever the interleaving handed to the parallel path, so that
path is not entered: the spec holds `min(k, 1)` tasks and no context; nothing
is appended for `k = 0` and the result is nil in an unchanged world, the task
itself is appended for `k = 1`, one composite task for `k >= 2`. `Single(t)`
with no options is `t`. -/
theorem C7_run_sequential_is_execute {σ ε : Type} (ts : List (Task σ ε))
    (sched : List (Action ε)) :
    (Sequential ts executionContext.zero).tasks.length = min ts.length 1 ∧
    (Sequential ts executionContext.zero).ctx = none ∧
    (Sequential ts executionContext.zero).onSuccess = none ∧
    (Sequential ts executionContext.zero).onFailure = none ∧
    (ts = [] → (Sequential ts executionContext.zero).tasks = []) ∧
    (∀ t, ts = [t] → (Sequential ts executionContext.zero).tasks = [t]) ∧
    (2 ≤ ts.length →
      (Sequential ts executionContext.zero).tasks = [fun s => execute ts s]) ∧
    (∀ s, Run sched [Sequential ts] s = execute ts s) ∧
    (∀ s : σ, Run sched [Sequential ([] : List (Task σ ε))] s = some (none, s)) ∧
    (∀ (t : Task σ ε) (s : σ), Run sched [Sequential [t]] s = t s) ∧
    (∀ (t : Task σ ε) (s : σ) (log : List Nat),
      Run sched [Sequential (traced [t])] (s, log) = probe 0 t (s, log)) ∧
    (∀ (t : Task σ ε) (s : σ), Single sched t [] s = t s) := by
  refine ⟨?_, ?_, ?_, ?_, ?_, ?_, ?_, ?_, ?_, ?_, ?_, ?_⟩
  · match ts with
    | [] => rfl
    | [t] => rfl
    | a :: b :: rest => simp [Sequential, executionContext.zero]
  · match ts with
    | [] => rfl
    | [t] => rfl
    | a :: b :: rest => rfl
  · match ts with
    | [] => rfl
    | [t] => rfl
    | a :: b :: rest => rfl
  · match ts with
    | [] => rfl
    | [t] => rfl
    | a :: b :: rest => rfl
  · intro h; subst h; rfl
  · intro t h; subst h; rfl
  · intro h
    match ts, h with
    | a :: b :: rest, _ => rfl
  · intro s; exact Run_Sequential sched ts s
  · intro s; rw [Run_Sequential]; rfl
  · intro t s; rw [Run_Sequential, execute_single]
  · intro t s log
    rw [Run_Sequential]
    exact execute_single _ _
  · intro t s
    show Run sched [Sequential [t]] s = t s
    rw [Run_Sequential, execute_single]

/-- Two tasks on a counter, the second failing: the composite runs both. -/
theorem C7_witness :
    (Sequential [fun (s : Nat) => some (none, s + 1), fun (s : Nat) => some (some 7, s)]
        (executionContext.zero : executionContext Nat Nat)).tasks
      = [fun s => execute [fun (s : Nat) => some (none, s + 1),
                           fun (s : Nat) => some (some 7, s)] s] :=
  (C7_run_sequential_is_execute
    [fun (s : Nat) => some (none, s + 1), fun (s : Nat) => some (some 7, s)]
    ([] : List (Action Nat))).2.2.2.2.2.2.1 (by decide)

end TaskEngine

namespace TaskEngine

/-! ## Claims about the continuations -/

theorem run_success {σ ε : Type} (sched : List (Action ε)) (c : executionContext σ ε)
    (w0 w1 : σ) (onS : Task σ ε) (h : executeTask sched c w0 = some (none, w1))
    (hs : c.onSuccess = some onS) : run sched c w0 = onS w1 := by
  unfold run
  rw [h, hs]

theorem run_failure {σ ε : Type} (sched : List (Action ε)) (c : executionContext σ ε)
    (w0 w1 : σ) (e : ε) (onF : Task σ ε) (h : executeTask sched c w0 = some (some e, w1))
    (hf : c.onFailure = some onF) : run sched c w0 = onF w1 := by
  unfold run
  rw [h, hf]

theorem run_pass {σ ε : Type} (sched : List (Action ε)) (c : executionContext σ ε)
    (w0 w1 : σ) (r : Option ε) (h : executeTask sched c w0 = some (r, w1))
    (hS : r = none → c.onSuccess = none) (hF : r ≠ none → c.onFailure = none) :
    run sched c w0 = some (r, w1) := by
  unfold run
  rw [h]
  cases r with
  | none => simp [hS rfl]
  | some e =>
    simp only [hF (by simp)]

/-- C2: when the task succeeds, `Run(Sequential(task), OnSuccess(s))` returns
what `s` returns in the world the task left, whether nil or an error; when the
task phase of any spec fails and `OnFailure(f)` is registered, the run returns
what `f` returns, so the error of the task phase is replaced, and lost when
`f` returns nil. -/
theorem C2_continuation_result_overrides {σ ε : Type} (sched : List (Action ε))
    (task s f : Task σ ε) (w0 w1 : σ) :
    (task w0 = some (none, w1) →
      Run sched [Sequential [task], OnSuccess (some s)] w0 = s w1) ∧
    (∀ (c : executionContext σ ε) (e : ε),
      executeTask sched c w0 = some (some e, w1) → c.onFailure = some f →
      run sched c w0 = f w1) ∧
    (∀ e : ε, task w0 = some (some e, w1) →
      Run sched [Sequential [task], OnFailure (some f)] w0 = f w1) ∧
    (∀ (e : ε) (w2 : σ), task w0 = some (some e, w1) → f w1 = some (none, w2) →
      Run sched [Sequential [task], OnFailure (some f)] w0 = some (none, w2)) := by
  have hS : task w0 = some (none, w1) →
      Run sched [Sequential [task], OnSuccess (some s)] w0 = s w1 := by
    intro h
    show run sched (OnSuccess (some s) (Sequential [task] executionContext.zero)) w0 = s w1
    exact run_success sched _ w0 w1 s h rfl
  have hF : ∀ e : ε, task w0 = some (some e, w1) →
      Run sched [Sequential [task], OnFailure (some f)] w0 = f w1 := by
    intro e h
    show run sched (OnFailure (some f) (Sequential [task] executionContext.zero)) w0 = f w1
    exact run_failure sched _ w0 w1 e f h rfl
  refine ⟨hS, ?_, hF, ?_⟩
  · intro c e h hf
    exact run_failure sched c w0 w1 e f h hf
  · intro e w2 h hf
    rw [hF e h, hf]

/-- A task that succeeds and adds one, a continuation that fails with 9. -/
theorem C2_witness :
    Run ([] : List (Action Nat))
        [Sequential [fun (s : Nat) => some (none, s + 1)],
         OnSuccess (some (fun (s : Nat) => some (some 9, s + 2)))] 0
      = some (some 9, 3) :=
  (C2_continuation_result_overrides ([] : List (Action Nat))
    (fun (s : Nat) => some (none, s + 1)) (fun (s : Nat) => some (some 9, s + 2))
    (fun (s : Nat) => some (none, s)) 0 1).1 rfl

/-- C3: with both continuations registered, one run invokes exactly one of
them, exactly once, after the task phase has returned: the log the run leaves
is the log the task phase left followed by one tag, `onSuccess` when the task
phase returned nil and `onFailure` when it returned an error; the run is the
chosen continuation started in the world the task phase left. -/
theorem C3_exactly_one_continuation {σ ε : Type} (sched : List (Action ε))
    (c : executionContext (σ × List Continuation) ε) (s f : Task σ ε)
    (hs : c.onSuccess = some (probe Continuation.onSuccess s))
    (hf : c.onFailure = some (probe Continuation.onFailure f))
    (w0 w1 : σ) (log0 log1 : List Continuation) (r : Option ε)
    (h : executeTask sched c (w0, log0) = some (r, (w1, log1))) :
    (r = none → run sched c (w0, log0) = probe Continuation.onSuccess s (w1, log1)) ∧
    (r ≠ none → run sched c (w0, log0) = probe Continuation.onFailure f (w1, log1)) ∧
    (∀ (r' : Option ε) (w2 : σ) (log2 : List Continuation),
      run sched c (w0, log0) = some (r', (w2, log2)) →
      log2 = log1 ++ [match r with
                      | none => Continuation.onSuccess
                      | some _ => Continuation.onFailure]) := by
  have h1 : r = none → run sched c (w0, log0) = probe Continuation.onSuccess s (w1, log1) := by
    intro hr
    subst hr
    exact run_success sched c _ _ _ h hs
  have h2 : r ≠ none → run sched c (w0, log0) = probe Continuation.onFailure f (w1, log1) := by
    intro hr
    cases r with
    | none => exact absurd rfl hr
    | some e => exact run_failure sched c _ _ e _ h hf
  refine ⟨h1, h2, ?_⟩
  intro r' w2 log2 hrun
  cases r with
  | none =>
    rw [h1 rfl] at hrun
    simp only [probe] at hrun
    cases hsv : s w1 with
    | none => rw [hsv] at hrun; simp at hrun
    | some p =>
      rw [hsv] at hrun
      simp at hrun
      simp [← hrun.2.2]
  | some e =>
    rw [h2 (by simp)] at hrun
    simp only [probe] at hrun
    cases hfv : f w1 with
    | none => rw [hfv] at hrun; simp at hrun
    | some p =>
      rw [hfv] at hrun
      simp at hrun
      simp [← hrun.2.2]

/-- A failing task, a success continuation adding one hundred and a failure
continuation adding one: only the failure continuation is logged. -/
theorem C3_witness :
    run ([] : List (Action Nat))
        { ctx := none, tasks := [fun (s : Nat × List Continuation) => some (some 7, s)],
          onSuccess := some (probe Continuation.onSuccess (fun (s : Nat) => some (none, s + 100))),
          onFailure := some (probe Continuation.onFailure (fun (s : Nat) => some (none, s + 1))) }
        (0, [])
      = some (none, (1, [Continuation.onFailure])) :=
  (C3_exactly_one_continuation ([] : List (Action Nat))
    { ctx := none, tasks := [fun (s : Nat × List Continuation) => some (some 7, s)],
      onSuccess := some (probe Continuation.onSuccess (fun (s : Nat) => some (none, s + 100))),
      onFailure := some (probe Continuation.onFailure (fun (s : Nat) => some (none, s + 1))) }
    (fun (s : Nat) => some (none, s + 100)) (fun (s : Nat) => some (none, s + 1))
    rfl rfl 0 0 [] [] (some 7) rfl).2.1 (by simp)

/-- C4: when the continuation matching the outcome of the task phase is not
registered (in particular when none is), the task returned by `Run` yields the
outcome of the task phase: the same error value, nil included, in the world the
task phase left, so that the other continuation, if any, is not invoked. -/
theorem C4_outcome_propagated_unchanged {σ ε : Type} (sched : List (Action ε))
    (opts : List (ExecutionOption σ ε)) (c : executionContext σ ε)
    (hc : opts.foldl (fun c opt => opt c) executionContext.zero = c)
    (w0 w1 : σ) (r : Option ε)
    (h : executeTask sched c w0 = some (r, w1))
    (hS : r = none → c.onSuccess = none) (hF : r ≠ none → c.onFailure = none) :
    Run sched opts w0 = some (r, w1) ∧ run sched c w0 = some (r, w1) := by
  have hrun : run sched c w0 = some (r, w1) := run_pass sched c w0 w1 r h hS hF
  refine ⟨?_, hrun⟩
  show run sched (opts.foldl (fun c opt => opt c) executionContext.zero) w0 = some (r, w1)
  rw [hc]
  exact hrun

/-- Only `OnSuccess` is registered and the task fails with 7: the error comes
back and the continuation, which would add one hundred, is not run. -/
theorem C4_witness :
    Run ([] : List (Action Nat))
        [Sequential [fun (s : Nat) => some (some 7, s + 1)],
         OnSuccess (some (fun (s : Nat) => some (none, s + 100)))] 0
      = some (some 7, 1) :=
  (C4_outcome_propagated_unchanged ([] : List (Action Nat))
    [Sequential [fun (s : Nat) => some (some 7, s + 1)],
     OnSuccess (some (fun (s : Nat) => some (none, s + 100)))]
    _ rfl 0 1 (some 7) rfl (by simp) (fun _ => rfl)).1

end TaskEngine

namespace TaskEngine

theorem Single_OnSuccess_ok {σ ε : Type} (sched : List (Action ε)) (t cw : Task σ ε)
    (w0 w1 : σ) (h : t w0 = some (none, w1)) :
    Single sched t [OnSuccess (some cw)] w0 = cw w1 :=
  run_success sched (OnSuccess (some cw) (Sequential [t] executionContext.zero)) w0 w1 cw h rfl

theorem Single_OnSuccess_fail {σ ε : Type} (sched : List (Action ε)) (t cw : Task σ ε)
    (w0 w1 : σ) (e : ε) (h : t w0 = some (some e, w1)) :
    Single sched t [OnSuccess (some cw)] w0 = some (some e, w1) :=
  run_pass sched (OnSuccess (some cw) (Sequential [t] executionContext.zero)) w0 w1 (some e) h
    (by simp) (fun _ => rfl)

end TaskEngine

/-! ## Claims about the relays -/

/-- C8, as stated, fails for `mtproto`: with copy tasks that succeed at once and
a `Close` that counts its calls, the request entry of the task list leaves the
count at 0 and the response entry raises it to 1, so it is the response
direction whose success closes `link.Writer`. -/
theorem C8_counterexample :
    (((Mtproto.relayOptions (⟨true, none⟩ : TaskEngine.Context Nat) []
          (fun (s : Nat) => some (none, s)) (fun (s : Nat) => some (none, s))
          (fun (s : Nat) => some (none, s + 1))).foldl
        (fun c opt => opt c) TaskEngine.executionContext.zero).tasks.map (fun t => t 0))
      = [some (none, 0), some (none, 1)] := by
  rfl

/-- C8, amended: `DokodemoDoor.Process` runs, under the bound context, the
request copy wrapped in `Single(requestDone, OnSuccess(Close(link.Writer)))`
next to the bare response copy, so the writer is closed when the request copy
succeeds and not when it fails; `Server.Process` of `mtproto` runs the bare
request copy next to the response copy wrapped in
`Single(response, OnSuccess(Close(link.Writer)))`, so there the writer is
closed when the response copy succeeds and not when it fails. -/
theorem C8_relay_wrapping {σ ε : Type} (ctx : TaskEngine.Context ε)
    (schedInner : List (TaskEngine.Action ε))
    (requestDone responseDone closeWriter : TaskEngine.Task σ ε) :
    ((Dokodemo.relayOptions ctx schedInner requestDone responseDone closeWriter).foldl
        (fun c opt => opt c) TaskEngine.executionContext.zero).tasks
      = [TaskEngine.Single schedInner requestDone [TaskEngine.OnSuccess (some closeWriter)],
         responseDone] ∧
    ((Dokodemo.relayOptions ctx schedInner requestDone responseDone closeWriter).foldl
        (fun c opt => opt c) TaskEngine.executionContext.zero).ctx = some ctx ∧
    ((Mtproto.relayOptions ctx schedInner requestDone responseDone closeWriter).foldl
        (fun c opt => opt c) TaskEngine.executionContext.zero).tasks
      = [requestDone,
         TaskEngine.Single schedInner responseDone [TaskEngine.OnSuccess (some closeWriter)]] ∧
    ((Mtproto.relayOptions ctx schedInner requestDone responseDone closeWriter).foldl
        (fun c opt => opt c) TaskEngine.executionContext.zero).ctx = some ctx ∧
    (∀ (t : TaskEngine.Task σ ε) (w0 w1 : σ), t w0 = some (none, w1) →
      TaskEngine.Single schedInner t [TaskEngine.OnSuccess (some closeWriter)] w0
        = closeWriter w1) ∧
    (∀ (t : TaskEngine.Task σ ε) (w0 w1 : σ) (e : ε), t w0 = some (some e, w1) →
      TaskEngine.Single schedInner t [TaskEngine.OnSuccess (some closeWriter)] w0
        = some (some e, w1)) := by
  refine ⟨rfl, rfl, rfl, rfl, ?_, ?_⟩
  · intro t w0 w1 h
    exact TaskEngine.Single_OnSuccess_ok schedInner t closeWriter w0 w1 h
  · intro t w0 w1 e h
    exact TaskEngine.Single_OnSuccess_fail schedInner t closeWriter w0 w1 e h

/-- A copy that succeeds after adding ten, a `Close` that adds one. -/
theorem C8_witness :
    TaskEngine.Single ([] : List (TaskEngine.Action Nat)) (fun (s : Nat) => some (none, s + 10))
        [TaskEngine.OnSuccess (some (fun (s : Nat) => some (none, s + 1)))] 0
      = some (none, 11) :=
  (C8_relay_wrapping (⟨true, none⟩ : TaskEngine.Context Nat) []
    (fun (s : Nat) => some (none, s + 10)) (fun (s : Nat) => some (none, s))
    (fun (s : Nat) => some (none, s + 1))).2.2.2.2.1
    (fun (s : Nat) => some (none, s + 10)) 0 10 rfl

/-! ## Claims about the header checks of `mtproto` -/

namespace Mtproto

theorem isValidConnectionType_iff (BytesAll : List Nat → Nat → Bool)
    (hBA : ∀ arr v, BytesAll arr v = arr.all (fun b => b == v)) (ct : Byte4) :
    isValidConnectionType BytesAll ct = true ↔
      (ct = ⟨0xef, 0xef, 0xef, 0xef⟩ ∨ ct = ⟨0xee, 0xee, 0xee, 0xee⟩) := by
  obtain ⟨a, b, c, d⟩ := ct
  simp only [isValidConnectionType, hBA, Byte4.slice, Byte4.mk.injEq]
  by_cases h1 : (a = 0xef ∧ b = 0xef ∧ c = 0xef ∧ d = 0xef)
  · obtain ⟨ha, hb, hc, hd⟩ := h1
    subst ha hb hc hd
    simp
  · by_cases h2 : (a = 0xee ∧ b = 0xee ∧ c = 0xee ∧ d = 0xee)
    · obtain ⟨ha, hb, hc, hd⟩ := h2
      subst ha hb hc hd
      simp
    · simp [h1, h2]

end Mtproto

/-- C9: for a 16-bit data-centre id, `Server.Process` returns the invalid
connection type error, whatever the id, when `isValidConnectionType` rejects
the four bytes, which it does unless they are all 0xef or all 0xee (given that
`compare.BytesAll` tells whether all bytes equal the value); else it returns
the invalid datacenter id error when the id is at least 5, the length of
`dcList`; else the lookup `dcList[dcID]` is in bounds and the destination
handed to `Dispatch` is TCP port 443 at that entry of the list. The lookup
never goes out of range. -/
theorem C9_datacenter_lookup_in_bounds (BytesAll : List Nat → Nat → Bool) (ct : Mtproto.Byte4)
    (dcID : Nat) (hd : dcID < 65536) :
    Mtproto.dcList.length = 5 ∧
    ((∀ arr v, BytesAll arr v = arr.all (fun b => b == v)) →
      (Mtproto.isValidConnectionType BytesAll ct = true ↔
        (ct = ⟨0xef, 0xef, 0xef, 0xef⟩ ∨ ct = ⟨0xee, 0xee, 0xee, 0xee⟩))) ∧
    (Mtproto.isValidConnectionType BytesAll ct = false →
      Mtproto.Server.Process BytesAll ct dcID = Mtproto.HeaderStep.invalidConnectionType ct) ∧
    (Mtproto.isValidConnectionType BytesAll ct = true → 5 ≤ dcID →
      Mtproto.Server.Process BytesAll ct dcID = Mtproto.HeaderStep.invalidDatacenterID dcID) ∧
    (Mtproto.isValidConnectionType BytesAll ct = true → dcID < 5 →
      ∃ addr, Mtproto.dcList[dcID]? = some addr ∧ addr ∈ Mtproto.dcList ∧
        Mtproto.Server.Process BytesAll ct dcID
          = Mtproto.HeaderStep.dispatch
              { Network := Net.Network.TCP, Address := addr, Port := 443 }) ∧
    Mtproto.Server.Process BytesAll ct dcID ≠ Mtproto.HeaderStep.indexOutOfRange := by
  have hlen : Mtproto.dcList.length = 5 := rfl
  have h3 : Mtproto.isValidConnectionType BytesAll ct = true → dcID < 5 →
      ∃ addr, Mtproto.dcList[dcID]? = some addr ∧ addr ∈ Mtproto.dcList ∧
        Mtproto.Server.Process BytesAll ct dcID
          = Mtproto.HeaderStep.dispatch
              { Network := Net.Network.TCP, Address := addr, Port := 443 } := by
    intro hv hlt
    have hlt' : dcID < Mtproto.dcList.length := by rw [hlen]; exact hlt
    refine ⟨Mtproto.dcList[dcID], List.getElem?_eq_getElem hlt', List.getElem_mem hlt', ?_⟩
    unfold Mtproto.Server.Process
    rw [hv, List.getElem?_eq_getElem hlt']
    have : ¬ dcID ≥ Mtproto.dcList.length % 65536 := by rw [hlen]; omega
    simp [this]
  have h2 : Mtproto.isValidConnectionType BytesAll ct = true → 5 ≤ dcID →
      Mtproto.Server.Process BytesAll ct dcID = Mtproto.HeaderStep.invalidDatacenterID dcID := by
    intro hv hge
    unfold Mtproto.Server.Process
    rw [hv]
    have : dcID ≥ Mtproto.dcList.length % 65536 := by rw [hlen]; omega
    simp [this]
  have h1 : Mtproto.isValidConnectionType BytesAll ct = false →
      Mtproto.Server.Process BytesAll ct dcID = Mtproto.HeaderStep.invalidConnectionType ct := by
    intro hv
    unfold Mtproto.Server.Process
    rw [hv]
    rfl
  refine ⟨hlen, fun hBA => Mtproto.isValidConnectionType_iff BytesAll hBA ct, h1, h2, h3, ?_⟩
  cases hv : Mtproto.isValidConnectionType BytesAll ct with
  | false => rw [h1 hv]; simp
  | true =>
    by_cases hlt : dcID < 5
    · obtain ⟨addr, _, _, hp⟩ := h3 hv hlt
      rw [hp]; simp
    · rw [h2 hv (by omega)]; simp

/-- The header of a connection of type 0xef to data centre 65535, which is what
a zero field makes of a data-centre id computed as `uint16(x) - 1`. -/
theorem C9_witness :
    Mtproto.Server.Process (fun arr v => arr.all (fun b => b == v)) ⟨0xef, 0xef, 0xef, 0xef⟩ 65535
      = Mtproto.HeaderStep.invalidDatacenterID 65535 :=
  (C9_datacenter_lookup_in_bounds (fun arr v => arr.all (fun b => b == v))
    ⟨0xef, 0xef, 0xef, 0xef⟩ 65535 (by decide)).2.2.2.1 (by decide) (by decide)

/-! ## Claims about the configuration of `dokodemo` -/

/-- C10: `Init` returns the no network specified error, and leaves the receiver
as it was, exactly when `Networks` is empty and `NetworkList` is nil or holds
an empty list; otherwise it returns nil, and then `Network()` does not
dereference a nil pointer and returns a non-empty list: `Networks` when that is
non-empty, the list of `NetworkList` otherwise. -/
theorem C10_init_guards_network {α π : Type} (G : Dokodemo.Config α → Option α)
    (d : Dokodemo.DokodemoDoor α π) (config : Dokodemo.Config α) (pm : π) :
    ((Dokodemo.DokodemoDoor.Init G d config pm).2 = some "no network specified" ↔
      (config.Networks = [] ∧
        (config.NetworkList = none ∨ ∃ nl, config.NetworkList = some nl ∧ nl.Network = []))) ∧
    ((Dokodemo.DokodemoDoor.Init G d config pm).2 = some "no network specified" →
      (Dokodemo.DokodemoDoor.Init G d config pm).1 = d) ∧
    ((Dokodemo.DokodemoDoor.Init G d config pm).2 ≠ some "no network specified" →
      (Dokodemo.DokodemoDoor.Init G d config pm).2 = none ∧
      (Dokodemo.DokodemoDoor.Init G d config pm).1.config = some config ∧
      ∃ l, (Dokodemo.DokodemoDoor.Init G d config pm).1.Network = some l ∧ l ≠ [] ∧
        (config.Networks ≠ [] → l = config.Networks) ∧
        (config.Networks = [] → ∃ nl, config.NetworkList = some nl ∧ l = nl.Network)) := by
  obtain ⟨addr, port, nlist, nets, tmo, fr, ul⟩ := config
  cases nets with
  | nil =>
    cases nlist with
    | none => simp [Dokodemo.DokodemoDoor.Init]
    | some nl =>
      obtain ⟨l⟩ := nl
      cases l with
      | nil => simp [Dokodemo.DokodemoDoor.Init]
      | cons x xs => simp [Dokodemo.DokodemoDoor.Init, Dokodemo.DokodemoDoor.Network]
  | cons n ns =>
    cases nlist with
    | none => simp [Dokodemo.DokodemoDoor.Init, Dokodemo.DokodemoDoor.Network]
    | some nl =>
      obtain ⟨l⟩ := nl
      cases l with
      | nil => simp [Dokodemo.DokodemoDoor.Init, Dokodemo.DokodemoDoor.Network]
      | cons x xs => simp [Dokodemo.DokodemoDoor.Init, Dokodemo.DokodemoDoor.Network]

/-- A configuration with an empty `Networks` and a `NetworkList` holding UDP. -/
theorem C10_witness :
    (Dokodemo.DokodemoDoor.Init (fun c => c.Address)
        (⟨none, none, none, 0⟩ : Dokodemo.DokodemoDoor String Unit)
        { Address := some "127.0.0.1", Port := 70000, NetworkList := some ⟨[Net.Network.UDP]⟩,
          Networks := [], Timeout := 0, FollowRedirect := false, UserLevel := 0 } ()).2 = none :=
  ((C10_init_guards_network (fun c => c.Address)
      (⟨none, none, none, 0⟩ : Dokodemo.DokodemoDoor String Unit)
      { Address := some "127.0.0.1", Port := 70000, NetworkList := some ⟨[Net.Network.UDP]⟩,
        Networks := [], Timeout := 0, FollowRedirect := false, UserLevel := 0 } ()).2.2
    (by decide)).1

/-! ## The parallel engine: steps -/

namespace TaskEngine

theorem sum_map_set {α : Type} (f : α → Nat) (l : List α) :
    ∀ (i : Nat) (a b : α), l[i]? = some a →
      ((l.set i b).map f).sum + f a = (l.map f).sum + f b := by
  induction l with
  | nil => intro i a b h; simp at h
  | cons x xs ih =>
    intro i a b h
    cases i with
    | zero =>
      simp at h
      subst h
      simp only [List.set_cons_zero, List.map_cons, List.sum_cons]
      omega
    | succ k =>
      have hk : xs[k]? = some a := by simpa using h
      have := ih k a b hk
      simp only [List.set_cons_succ, List.map_cons, List.sum_cons]
      omega

theorem okExits_le {ε : Type} (gor : List (GState ε)) : okExits gor ≤ gor.length := by
  unfold okExits
  induction gor with
  | nil => simp
  | cons g rest ih =>
    have hg : g.signalled ≤ 1 := by
      cases g with
      | running => simp [GState.signalled]
      | returned r => simp [GState.signalled]
      | exited r => cases r <;> simp [GState.signalled]
    simp
    omega

theorem okExits_lt {ε : Type} (gor : List (GState ε)) :
    ∀ (i : Nat) (g : GState ε), gor[i]? = some g → g.signalled = 0 →
      okExits gor < gor.length := by
  induction gor with
  | nil => intro i g h; simp at h
  | cons x xs ih =>
    intro i g h hg
    cases i with
    | zero =>
      simp at h
      subst h
      have := okExits_le xs
      simp [okExits] at this ⊢
      omega
    | succ k =>
      have hk : xs[k]? = some g := by simpa using h
      have h1 := ih k g hk hg
      have hx : x.signalled ≤ 1 := by
        cases x with
        | running => simp [GState.signalled]
        | returned r => simp [GState.signalled]
        | exited r => cases r <;> simp [GState.signalled]
      simp [okExits] at h1 ⊢
      omega

theorem signalled_eq_one {ε : Type} (g : GState ε) (h : g.signalled ≠ 0) :
    g = GState.exited none := by
  cases g with
  | running => simp [GState.signalled] at h
  | returned r => simp [GState.signalled] at h
  | exited r =>
    cases r with
    | none => rfl
    | some e => simp [GState.signalled] at h

theorem all_exited_of_okExits {ε : Type} (gor : List (GState ε))
    (h : okExits gor = gor.length) (i : Nat) (g : GState ε) (hg : gor[i]? = some g) :
    g = GState.exited none := by
  by_contra hne
  have h0 : g.signalled = 0 := by
    by_contra h1
    exact hne (signalled_eq_one g h1)
  have := okExits_lt gor i g hg h0
  omega

theorem okExits_append_running {ε : Type} (gor : List (GState ε)) :
    okExits (gor ++ [GState.running]) = okExits gor := by
  simp [okExits, GState.signalled]

theorem okExits_set {ε : Type} (gor : List (GState ε)) (i : Nat) (a b : GState ε)
    (h : gor[i]? = some a) :
    okExits (gor.set i b) + a.signalled = okExits gor + b.signalled :=
  sum_map_set GState.signalled gor i a b h

theorem getElem?_set_cases {α : Type} (l : List α) (k i : Nat) (b g : α)
    (h : (l.set k b)[i]? = some g) :
    (i = k ∧ g = b) ∨ (i ≠ k ∧ l[i]? = some g) := by
  rw [List.getElem?_set] at h
  by_cases hik : k = i
  · left
    rw [if_pos hik] at h
    split at h
    · exact ⟨hik.symm, (Option.some.inj h).symm⟩
    · simp at h
  · right
    rw [if_neg hik] at h
    exact ⟨fun h' => hik h'.symm, h⟩

theorem getElem?_set_keep {α : Type} (l : List α) (k i : Nat) (a b x : α)
    (hk : l[k]? = some a) (hi : l[i]? = some x) (hne : x ≠ a) :
    (l.set k b)[i]? = some x := by
  have hik : k ≠ i := by
    intro h
    subst h
    rw [hk] at hi
    exact hne (Option.some.inj hi).symm
  rw [List.getElem?_set_ne hik]
  exact hi

theorem getElem?_append_one_cases {α : Type} (l : List α) (i : Nat) (b g : α)
    (h : (l ++ [b])[i]? = some g) :
    l[i]? = some g ∨ (i = l.length ∧ g = b) := by
  rw [List.getElem?_append] at h
  split at h
  · left; exact h
  · right
    rename_i hlt
    have hi : i - l.length = 0 := by
      by_contra hne
      have : (1 : Nat) ≤ i - l.length := by omega
      rw [List.getElem?_eq_none (by simpa using this)] at h
      simp at h
    rw [hi] at h
    simp at h
    exact ⟨by omega, h.symm⟩

theorem getElem?_append_one_keep {α : Type} (l : List α) (i : Nat) (b x : α)
    (h : l[i]? = some x) : (l ++ [b])[i]? = some x := by
  have hlt : i < l.length := by
    by_contra hge
    rw [List.getElem?_eq_none (by omega)] at h
    simp at h
  rw [List.getElem?_append_left hlt]
  exact h

/-! ### What each action does -/

theorem step_launch {σ ε : Type} (ctx : Context ε) (tasks : List (Task σ ε))
    (st st' : PState σ ε) (h : step ctx tasks Action.launch st = some st') :
    ∃ j, st.ctrl = Ctrl.launching j ∧ j < tasks.length ∧ 0 < st.sem.available ∧
      st' = { st with sem := { st.sem with available := st.sem.available - 1 },
                      gor := st.gor ++ [GState.running], ctrl := Ctrl.launching (j + 1) } := by
  simp only [step] at h
  split at h
  · rename_i j hj
    split at h
    · rename_i hlt
      simp only [Semaphore.Wait] at h
      split at h
      · rename_i sem' hw
        split at hw
        · rename_i hav
          refine ⟨j, hj, hlt, hav, ?_⟩
          rw [← Option.some.inj h, ← Option.some.inj hw]
        · simp at hw
      · simp at h
    · simp at h
  · simp at h

theorem step_advance {σ ε : Type} (ctx : Context ε) (tasks : List (Task σ ε))
    (st st' : PState σ ε) (h : step ctx tasks Action.advance st = some st') :
    (∃ j, st.ctrl = Ctrl.launching j ∧ tasks.length ≤ j ∧
      st' = { st with ctrl := Ctrl.waiting 0 }) ∨
    (∃ i, st.ctrl = Ctrl.waiting i ∧ tasks.length ≤ i ∧
      st' = { st with ctrl := Ctrl.finished none }) := by
  simp only [step] at h
  split at h
  · rename_i j hj
    split at h
    · simp at h
    · rename_i hlt
      left
      exact ⟨j, hj, by omega, (Option.some.inj h).symm⟩
  · rename_i i hi
    split at h
    · simp at h
    · rename_i hlt
      right
      exact ⟨i, hi, by omega, (Option.some.inj h).symm⟩
  · simp at h

theorem step_call {σ ε : Type} (ctx : Context ε) (tasks : List (Task σ ε)) (i : Nat)
    (st st' : PState σ ε) (h : step ctx tasks (Action.call i) st = some st') :
    ∃ f r w', st.gor[i]? = some GState.running ∧ tasks[i]? = some f ∧
      f st.world = some (r, w') ∧
      st' = { st with world := w', gor := st.gor.set i (GState.returned r) } := by
  simp only [step] at h
  split at h
  · rename_i f hg hf
    split at h
    · rename_i r w' hfw
      exact ⟨f, r, w', hg, hf, hfw, (Option.some.inj h).symm⟩
    · simp at h
  · simp at h

theorem step_report {σ ε : Type} (ctx : Context ε) (tasks : List (Task σ ε)) (i : Nat)
    (st st' : PState σ ε) (h : step ctx tasks (Action.report i) st = some st') :
    (st.gor[i]? = some (GState.returned none) ∧ st.sem.available < st.sem.capacity ∧
      st' = { st with sem := { st.sem with available := st.sem.available + 1 },
                      gor := st.gor.set i (GState.exited none) }) ∨
    (∃ e, st.gor[i]? = some (GState.returned (some e)) ∧ st.done = none ∧
      st' = { st with done := some e, sent := st.sent ++ [e],
                      gor := st.gor.set i (GState.exited (some e)) }) ∨
    (∃ e e0, st.gor[i]? = some (GState.returned (some e)) ∧ st.done = some e0 ∧
      st' = { st with gor := st.gor.set i (GState.exited (some e)) }) := by
  simp only [step] at h
  split at h
  · rename_i hg
    simp only [Semaphore.Signal] at h
    split at h
    · rename_i sem' hs
      split at hs
      · rename_i hav
        left
        refine ⟨hg, hav, ?_⟩
        rw [← Option.some.inj h, ← Option.some.inj hs]
      · simp at hs
    · simp at h
  · rename_i e hg
    split at h
    · rename_i hd
      right; left
      exact ⟨e, hg, hd, (Option.some.inj h).symm⟩
    · rename_i e0 hd
      right; right
      exact ⟨e, e0, hg, hd, (Option.some.inj h).symm⟩
  · simp at h

theorem step_recvDone {σ ε : Type} (ctx : Context ε) (tasks : List (Task σ ε))
    (st st' : PState σ ε) (h : step ctx tasks Action.recvDone st = some st') :
    ∃ i e, st.ctrl = Ctrl.waiting i ∧ i < tasks.length ∧ st.done = some e ∧
      st' = { st with done := none, ctrl := Ctrl.finished (some e) } := by
  simp only [step] at h
  split at h
  · rename_i i e hc hd
    split at h
    · rename_i hlt
      exact ⟨i, e, hc, hlt, hd, (Option.some.inj h).symm⟩
    · simp at h
  · simp at h

theorem step_recvCtx {σ ε : Type} (ctx : Context ε) (tasks : List (Task σ ε))
    (st st' : PState σ ε) (h : step ctx tasks Action.recvCtx st = some st') :
    ∃ i e, st.ctrl = Ctrl.waiting i ∧ i < tasks.length ∧ st.ctxErr = some e ∧
      st' = { st with ctrl := Ctrl.finished (some e) } := by
  simp only [step] at h
  split at h
  · rename_i i e hc hd
    split at h
    · rename_i hlt
      exact ⟨i, e, hc, hlt, hd, (Option.some.inj h).symm⟩
    · simp at h
  · simp at h

theorem step_recvPermit {σ ε : Type} (ctx : Context ε) (tasks : List (Task σ ε))
    (st st' : PState σ ε) (h : step ctx tasks Action.recvPermit st = some st') :
    ∃ i, st.ctrl = Ctrl.waiting i ∧ i < tasks.length ∧ 0 < st.sem.available ∧
      st' = { st with sem := { st.sem with available := st.sem.available - 1 },
                      ctrl := Ctrl.waiting (i + 1) } := by
  simp only [step] at h
  split at h
  · rename_i i hi
    split at h
    · rename_i hlt
      simp only [Semaphore.Wait] at h
      split at h
      · rename_i sem' hw
        split at hw
        · rename_i hav
          refine ⟨i, hi, hlt, hav, ?_⟩
          rw [← Option.some.inj h, ← Option.some.inj hw]
        · simp at hw
      · simp at h
    · simp at h
  · simp at h

theorem step_cancel {σ ε : Type} (ctx : Context ε) (tasks : List (Task σ ε)) (e : ε)
    (st st' : PState σ ε) (h : step ctx tasks (Action.cancel e) st = some st') :
    ctx.cancellable = true ∧ st.ctxErr = none ∧ st' = { st with ctxErr := some e } := by
  simp only [step] at h
  split at h
  · rename_i hc hn
    exact ⟨hc, hn, (Option.some.inj h).symm⟩
  · simp at h

end TaskEngine

/-! ## The parallel engine: the invariant -/

namespace TaskEngine

theorem Inv_start {σ ε : Type} (ctx : Context ε) (tasks : List (Task σ ε)) (w : σ) :
    Inv tasks (PState.start ctx tasks w) := by
  refine ⟨rfl, Nat.zero_le _, ?_, ?_, ?_, ?_, ?_, ?_, ?_⟩
  · show (0 = 0 ∧ tasks.length + 0 = tasks.length + okExits ([] : List (GState ε)))
    simp [okExits]
  · intro e h; cases h
  · intro e h; cases h
  · intro i e h; simp [PState.start] at h
  · intro i g r h; simp [PState.start] at h
  · intro e h; cases h
  · intro _; rfl

theorem ctrlInv_congr {ε : Type} (n : Nat) (sem : Semaphore) (gor gor' : List (GState ε))
    (c : Ctrl ε) (hl : gor'.length = gor.length) (ho : okExits gor' = okExits gor)
    (h : ctrlInv n sem gor c) : ctrlInv n sem gor' c := by
  cases c with
  | launching j => simp only [ctrlInv] at h ⊢; omega
  | waiting i => simp only [ctrlInv] at h ⊢; omega
  | finished r =>
    cases r with
    | none => simp only [ctrlInv] at h ⊢; omega
    | some e => trivial

theorem lt_length_of_getElem? {α : Type} (l : List α) (i : Nat) (a : α) (h : l[i]? = some a) :
    i < l.length := by
  by_contra hge
  rw [List.getElem?_eq_none (by omega)] at h
  cases h

theorem Inv_launch {σ ε : Type} (ctx : Context ε) (tasks : List (Task σ ε))
    (st st' : PState σ ε) (h : step ctx tasks Action.launch st = some st')
    (hI : Inv tasks st) : Inv tasks st' := by
  obtain ⟨j, hc, hlt, hav, rfl⟩ := step_launch ctx tasks st st' h
  have hci := hI.ctrl
  rw [hc] at hci
  simp only [ctrlInv] at hci
  have hlive : st.sent = st.done.toList :=
    hI.sentLive (fun e he => by rw [hc] at he; cases he)
  refine ⟨hI.cap, ?_, ?_, ?_, ?_, ?_, ?_, (fun e he => by cases he), (fun _ => hlive)⟩
  · show (st.gor ++ [GState.running]).length ≤ tasks.length
    simp; omega
  · show ctrlInv tasks.length _ (st.gor ++ [GState.running]) (Ctrl.launching (j + 1))
    simp only [ctrlInv, okExits_append_running, List.length_append, List.length_singleton]
    omega
  · intro e he
    obtain ⟨i, hi⟩ := hI.done e he
    exact ⟨i, getElem?_append_one_keep _ _ _ _ hi⟩
  · intro e he; cases he
  · intro i e hi
    rcases getElem?_append_one_cases _ _ _ _ hi with h1 | ⟨_, h2⟩
    · rcases hI.first i e h1 with hd | ⟨e', hf⟩
      · exact Or.inl hd
      · rw [hc] at hf; cases hf
    · cases h2
  · intro i g r hi hr
    rcases getElem?_append_one_cases _ _ _ _ hi with h1 | ⟨_, h2⟩
    · exact hI.res i g r h1 hr
    · subst h2; cases hr

theorem Inv_advance {σ ε : Type} (ctx : Context ε) (tasks : List (Task σ ε))
    (st st' : PState σ ε) (h : step ctx tasks Action.advance st = some st')
    (hI : Inv tasks st) : Inv tasks st' := by
  have hci := hI.ctrl
  have hlen := hI.len
  have hok := okExits_le st.gor
  rcases step_advance ctx tasks st st' h with ⟨j, hc, hge, rfl⟩ | ⟨i, hc, hge, rfl⟩
  · rw [hc] at hci
    simp only [ctrlInv] at hci
    have hlive : st.sent = st.done.toList :=
      hI.sentLive (fun e he => by rw [hc] at he; cases he)
    refine ⟨hI.cap, hI.len, ?_, hI.done, ?_, ?_, hI.res, (fun e he => by cases he),
      (fun _ => hlive)⟩
    · show (st.gor.length = tasks.length ∧ 0 ≤ tasks.length ∧ st.sem.available + 0 = okExits st.gor)
      omega
    · intro e he; cases he
    · intro i e hi
      rcases hI.first i e hi with hd | ⟨e', hf⟩
      · exact Or.inl hd
      · rw [hc] at hf; cases hf
  · rw [hc] at hci
    simp only [ctrlInv] at hci
    have hlive : st.sent = st.done.toList :=
      hI.sentLive (fun e he => by rw [hc] at he; cases he)
    refine ⟨hI.cap, hI.len, ?_, hI.done, ?_, ?_, hI.res, (fun e he => by cases he),
      (fun _ => hlive)⟩
    · show (st.gor.length = tasks.length ∧ okExits st.gor = tasks.length)
      omega
    · intro e he; cases he
    · intro k e hk
      rcases hI.first k e hk with hd | ⟨e', hf⟩
      · exact Or.inl hd
      · rw [hc] at hf; cases hf

theorem Inv_call {σ ε : Type} (ctx : Context ε) (tasks : List (Task σ ε)) (i : Nat)
    (st st' : PState σ ε) (h : step ctx tasks (Action.call i) st = some st')
    (hI : Inv tasks st) : Inv tasks st' := by
  obtain ⟨f, r, w', hg, hf, hfw, rfl⟩ := step_call ctx tasks i st st' h
  have hset := okExits_set st.gor i GState.running (GState.returned r) hg
  simp only [GState.signalled] at hset
  refine ⟨hI.cap, ?_, ?_, ?_, ?_, ?_, ?_, hI.sentFin, hI.sentLive⟩
  · show (st.gor.set i (GState.returned r)).length ≤ tasks.length
    rw [List.length_set]; exact hI.len
  · exact ctrlInv_congr _ _ st.gor _ _ (List.length_set _ _ _)
      (show okExits (st.gor.set i (GState.returned r)) = okExits st.gor by omega) hI.ctrl
  · intro e he
    obtain ⟨k, hk⟩ := hI.done e he
    exact ⟨k, getElem?_set_keep _ _ _ _ _ _ hg hk (by simp)⟩
  · intro e he
    rcases hI.fin e he with ⟨k, hk⟩ | hx
    · exact Or.inl ⟨k, getElem?_set_keep _ _ _ _ _ _ hg hk (by simp)⟩
    · exact Or.inr hx
  · intro k e hk
    rcases getElem?_set_cases _ _ _ _ _ hk with ⟨_, h2⟩ | ⟨_, h2⟩
    · cases h2
    · exact hI.first k e h2
  · intro k g r' hk hr
    rcases getElem?_set_cases _ _ _ _ _ hk with ⟨h1, h2⟩ | ⟨_, h2⟩
    · subst h1 h2
      simp only [GState.result, Option.some.injEq] at hr
      subst hr
      exact ⟨f, st.world, w', hf, hfw⟩
    · exact hI.res k g r' h2 hr

theorem Inv_report {σ ε : Type} (ctx : Context ε) (tasks : List (Task σ ε)) (i : Nat)
    (st st' : PState σ ε) (h : step ctx tasks (Action.report i) st = some st')
    (hI : Inv tasks st) : Inv tasks st' := by
  rcases step_report ctx tasks i st st' h with ⟨hg, hav, rfl⟩ | ⟨e, hg, hd, rfl⟩ |
    ⟨e, e0, hg, hd, rfl⟩
  · have hset := okExits_set st.gor i (GState.returned none) (GState.exited none) hg
    simp only [GState.signalled] at hset
    have hlt := okExits_lt st.gor i _ hg rfl
    refine ⟨hI.cap, ?_, ?_, ?_, ?_, ?_, ?_, hI.sentFin, hI.sentLive⟩
    · show (st.gor.set i (GState.exited none)).length ≤ tasks.length
      rw [List.length_set]; exact hI.len
    · have hci := hI.ctrl
      show ctrlInv tasks.length { st.sem with available := st.sem.available + 1 }
        (st.gor.set i (GState.exited none)) st.ctrl
      cases hc : st.ctrl with
      | launching j =>
        rw [hc] at hci
        simp only [ctrlInv, List.length_set] at hci ⊢
        omega
      | waiting k =>
        rw [hc] at hci
        simp only [ctrlInv, List.length_set] at hci ⊢
        omega
      | finished r =>
        rw [hc] at hci
        cases r with
        | none =>
          simp only [ctrlInv, List.length_set] at hci ⊢
          omega
        | some e => trivial
    · intro e he
      obtain ⟨k, hk⟩ := hI.done e he
      exact ⟨k, getElem?_set_keep _ _ _ _ _ _ hg hk (by simp)⟩
    · intro e he
      rcases hI.fin e he with ⟨k, hk⟩ | hx
      · exact Or.inl ⟨k, getElem?_set_keep _ _ _ _ _ _ hg hk (by simp)⟩
      · exact Or.inr hx
    · intro k e hk
      rcases getElem?_set_cases _ _ _ _ _ hk with ⟨_, h2⟩ | ⟨_, h2⟩
      · cases h2
      · exact hI.first k e h2
    · intro k g r' hk hr
      rcases getElem?_set_cases _ _ _ _ _ hk with ⟨h1, h2⟩ | ⟨_, h2⟩
      · subst h1 h2
        exact hI.res k (GState.returned none) r' hg hr
      · exact hI.res k g r' h2 hr
  · have hset := okExits_set st.gor i (GState.returned (some e)) (GState.exited (some e)) hg
    simp only [GState.signalled] at hset
    refine ⟨hI.cap, ?_, ?_, ?_, ?_, ?_, ?_, ?_, ?_⟩
    · show (st.gor.set i (GState.exited (some e))).length ≤ tasks.length
      rw [List.length_set]; exact hI.len
    · exact ctrlInv_congr _ _ st.gor _ _ (List.length_set _ _ _)
        (show okExits (st.gor.set i (GState.exited (some e))) = okExits st.gor by omega) hI.ctrl
    · intro e' he
      have : e = e' := Option.some.inj he
      subst this
      exact ⟨i, List.getElem?_set_self (lt_length_of_getElem? _ _ _ hg)⟩
    · intro e' he
      rcases hI.fin e' he with ⟨k, hk⟩ | hx
      · exact Or.inl ⟨k, getElem?_set_keep _ _ _ _ _ _ hg hk (by simp)⟩
      · exact Or.inr hx
    · intro k e' hk
      exact Or.inl rfl
    · intro k g r' hk hr
      rcases getElem?_set_cases _ _ _ _ _ hk with ⟨h1, h2⟩ | ⟨_, h2⟩
      · subst h1 h2
        exact hI.res k (GState.returned (some e)) r' hg hr
      · exact hI.res k g r' h2 hr
    · intro e' he
      rcases hI.sentFin e' he with h1 | h1
      · left
        show (st.sent ++ [e]).head? = some e'
        cases hs : st.sent with
        | nil => rw [hs] at h1; cases h1
        | cons x xs => rw [hs] at h1; simpa using h1
      · exact Or.inr h1
    · intro hnf
      have := hI.sentLive hnf
      show st.sent ++ [e] = (some e).toList
      rw [this, hd]
      rfl
  · have hset := okExits_set st.gor i (GState.returned (some e)) (GState.exited (some e)) hg
    simp only [GState.signalled] at hset
    refine ⟨hI.cap, ?_, ?_, ?_, ?_, ?_, ?_, hI.sentFin, hI.sentLive⟩
    · show (st.gor.set i (GState.exited (some e))).length ≤ tasks.length
      rw [List.length_set]; exact hI.len
    · exact ctrlInv_congr _ _ st.gor _ _ (List.length_set _ _ _)
        (show okExits (st.gor.set i (GState.exited (some e))) = okExits st.gor by omega) hI.ctrl
    · intro e' he
      obtain ⟨k, hk⟩ := hI.done e' he
      exact ⟨k, getElem?_set_keep _ _ _ _ _ _ hg hk (by simp)⟩
    · intro e' he
      rcases hI.fin e' he with ⟨k, hk⟩ | hx
      · exact Or.inl ⟨k, getElem?_set_keep _ _ _ _ _ _ hg hk (by simp)⟩
      · exact Or.inr hx
    · intro k e' hk
      left
      show st.done.isSome = true
      rw [hd]; rfl
    · intro k g r' hk hr
      rcases getElem?_set_cases _ _ _ _ _ hk with ⟨h1, h2⟩ | ⟨_, h2⟩
      · subst h1 h2
        exact hI.res k (GState.returned (some e)) r' hg hr
      · exact hI.res k g r' h2 hr

theorem Inv_recv {σ ε : Type} (ctx : Context ε) (tasks : List (Task σ ε)) (a : Action ε)
    (ha : a = Action.recvDone ∨ a = Action.recvCtx ∨ a = Action.recvPermit)
    (st st' : PState σ ε) (h : step ctx tasks a st = some st')
    (hI : Inv tasks st) : Inv tasks st' := by
  rcases ha with rfl | rfl | rfl
  · obtain ⟨i, e, hc, hlt, hd, rfl⟩ := step_recvDone ctx tasks st st' h
    have hlive : st.sent = st.done.toList :=
      hI.sentLive (fun e he => by rw [hc] at he; cases he)
    refine ⟨hI.cap, hI.len, trivial, ?_, ?_, ?_, hI.res, ?_, ?_⟩
    · intro e' he; cases he
    · intro e' he
      have : e = e' := by injection he with h1; exact Option.some.inj h1
      subst this
      exact Or.inl (hI.done e hd)
    · intro k e' hk
      exact Or.inr ⟨e, rfl⟩
    · intro e' he
      have : e = e' := by injection he with h1; exact Option.some.inj h1
      subst this
      left
      show st.sent.head? = some e
      rw [hlive, hd]
      rfl
    · intro hnf
      exact absurd rfl (hnf e)
  · obtain ⟨i, e, hc, hlt, hd, rfl⟩ := step_recvCtx ctx tasks st st' h
    refine ⟨hI.cap, hI.len, trivial, hI.done, ?_, ?_, hI.res, ?_, ?_⟩
    · intro e' he
      have : e = e' := by injection he with h1; exact Option.some.inj h1
      subst this
      exact Or.inr hd
    · intro k e' hk
      exact Or.inr ⟨e, rfl⟩
    · intro e' he
      have : e = e' := by injection he with h1; exact Option.some.inj h1
      subst this
      exact Or.inr hd
    · intro hnf
      exact absurd rfl (hnf e)
  · obtain ⟨i, hc, hlt, hav, rfl⟩ := step_recvPermit ctx tasks st st' h
    have hci := hI.ctrl
    rw [hc] at hci
    simp only [ctrlInv] at hci
    have hlive : st.sent = st.done.toList :=
      hI.sentLive (fun e he => by rw [hc] at he; cases he)
    refine ⟨hI.cap, hI.len, ?_, hI.done, ?_, ?_, hI.res, (fun e he => by cases he),
      (fun _ => hlive)⟩
    · show (st.gor.length = tasks.length ∧ i + 1 ≤ tasks.length ∧
        st.sem.available - 1 + (i + 1) = okExits st.gor)
      omega
    · intro e he; cases he
    · intro k e hk
      rcases hI.first k e hk with hd | ⟨e', hf⟩
      · exact Or.inl hd
      · rw [hc] at hf; cases hf

theorem Inv_cancel {σ ε : Type} (ctx : Context ε) (tasks : List (Task σ ε)) (e : ε)
    (st st' : PState σ ε) (h : step ctx tasks (Action.cancel e) st = some st')
    (hI : Inv tasks st) : Inv tasks st' := by
  obtain ⟨_, hn, rfl⟩ := step_cancel ctx tasks e st st' h
  refine ⟨hI.cap, hI.len, hI.ctrl, hI.done, ?_, hI.first, hI.res, ?_, hI.sentLive⟩
  · intro e' he
    rcases hI.fin e' he with hk | hx
    · exact Or.inl hk
    · rw [hn] at hx; cases hx
  · intro e' he
    rcases hI.sentFin e' he with hk | hx
    · exact Or.inl hk
    · rw [hn] at hx; cases hx

theorem Inv_step {σ ε : Type} (ctx : Context ε) (tasks : List (Task σ ε)) (a : Action ε)
    (st st' : PState σ ε) (h : step ctx tasks a st = some st')
    (hI : Inv tasks st) : Inv tasks st' := by
  cases a with
  | launch => exact Inv_launch ctx tasks st st' h hI
  | advance => exact Inv_advance ctx tasks st st' h hI
  | call i => exact Inv_call ctx tasks i st st' h hI
  | report i => exact Inv_report ctx tasks i st st' h hI
  | recvDone => exact Inv_recv ctx tasks _ (Or.inl rfl) st st' h hI
  | recvCtx => exact Inv_recv ctx tasks _ (Or.inr (Or.inl rfl)) st st' h hI
  | recvPermit => exact Inv_recv ctx tasks _ (Or.inr (Or.inr rfl)) st st' h hI
  | cancel e => exact Inv_cancel ctx tasks e st st' h hI

theorem runSched_cons {σ ε : Type} (ctx : Context ε) (tasks : List (Task σ ε))
    (a : Action ε) (rest : List (Action ε)) (st st' : PState σ ε)
    (h : runSched ctx tasks (a :: rest) st = some st') :
    ∃ st1, step ctx tasks a st = some st1 ∧ runSched ctx tasks rest st1 = some st' := by
  simp only [runSched] at h
  split at h
  · rename_i st1 hs
    exact ⟨st1, hs, h⟩
  · cases h

theorem Inv_runSched {σ ε : Type} (ctx : Context ε) (tasks : List (Task σ ε))
    (sched : List (Action ε)) :
    ∀ (st st' : PState σ ε), runSched ctx tasks sched st = some st' →
      Inv tasks st → Inv tasks st' := by
  induction sched with
  | nil =>
    intro st st' h hI
    simp only [runSched, Option.some.injEq] at h
    subst h
    exact hI
  | cons a rest ih =>
    intro st st' h hI
    obtain ⟨st1, hs, hr⟩ := runSched_cons ctx tasks a rest st st' h
    exact ih st1 st' hr (Inv_step ctx tasks a st st1 hs hI)

end TaskEngine

/-! ## The parallel engine: cancellation, termination, progress -/

namespace TaskEngine

theorem ctxErr_step {σ ε : Type} (ctx : Context ε) (tasks : List (Task σ ε)) (a : Action ε)
    (st st' : PState σ ε) (h : step ctx tasks a st = some st')
    (ha : ∀ e, a ≠ Action.cancel e) : st'.ctxErr = st.ctxErr := by
  cases a with
  | launch => obtain ⟨j, _, _, _, rfl⟩ := step_launch ctx tasks st st' h; rfl
  | advance =>
    rcases step_advance ctx tasks st st' h with ⟨j, _, _, rfl⟩ | ⟨i, _, _, rfl⟩ <;> rfl
  | call i => obtain ⟨f, r, w', _, _, _, rfl⟩ := step_call ctx tasks i st st' h; rfl
  | report i =>
    rcases step_report ctx tasks i st st' h with ⟨_, _, rfl⟩ | ⟨e, _, _, rfl⟩ |
      ⟨e, e0, _, _, rfl⟩ <;> rfl
  | recvDone => obtain ⟨i, e, _, _, _, rfl⟩ := step_recvDone ctx tasks st st' h; rfl
  | recvCtx => obtain ⟨i, e, _, _, _, rfl⟩ := step_recvCtx ctx tasks st st' h; rfl
  | recvPermit => obtain ⟨i, _, _, _, rfl⟩ := step_recvPermit ctx tasks st st' h; rfl
  | cancel e => exact absurd rfl (ha e)

theorem ctxErr_runSched {σ ε : Type} (ctx : Context ε) (tasks : List (Task σ ε))
    (sched : List (Action ε)) :
    ∀ (st st' : PState σ ε), runSched ctx tasks sched st = some st' →
      (∀ e, Action.cancel e ∉ sched) → st'.ctxErr = st.ctxErr := by
  induction sched with
  | nil =>
    intro st st' h _
    simp only [runSched, Option.some.injEq] at h
    subst h
    rfl
  | cons a rest ih =>
    intro st st' h hnc
    obtain ⟨st1, hs, hr⟩ := runSched_cons ctx tasks a rest st st' h
    have h1 := ctxErr_step ctx tasks a st st1 hs
      (fun e he => hnc e (by rw [he]; exact List.mem_cons_self _ _))
    have h2 := ih st1 st' hr (fun e he => hnc e (List.mem_cons_of_mem _ he))
    rw [h2, h1]

theorem fuel_step {σ ε : Type} (ctx : Context ε) (tasks : List (Task σ ε)) (a : Action ε)
    (st st' : PState σ ε) (h : step ctx tasks a st = some st') :
    st'.fuel tasks.length < st.fuel tasks.length := by
  cases a with
  | launch =>
    obtain ⟨j, hc, hlt, _, rfl⟩ := step_launch ctx tasks st st' h
    simp only [PState.fuel, hc, Ctrl.todo, List.map_append, List.sum_append, List.map_cons,
      List.map_nil, List.sum_cons, List.sum_nil, GState.todo]
    omega
  | advance =>
    rcases step_advance ctx tasks st st' h with ⟨j, hc, hge, rfl⟩ | ⟨i, hc, hge, rfl⟩
    · simp only [PState.fuel, hc, Ctrl.todo]
      omega
    · simp only [PState.fuel, hc, Ctrl.todo]
      omega
  | call i =>
    obtain ⟨f, r, w', hg, _, _, rfl⟩ := step_call ctx tasks i st st' h
    have hs := sum_map_set GState.todo st.gor i GState.running (GState.returned r) hg
    simp only [GState.todo] at hs
    simp only [PState.fuel]
    omega
  | report i =>
    rcases step_report ctx tasks i st st' h with ⟨hg, _, rfl⟩ | ⟨e, hg, _, rfl⟩ |
      ⟨e, e0, hg, _, rfl⟩
    · have hs := sum_map_set GState.todo st.gor i _ (GState.exited none) hg
      simp only [GState.todo] at hs
      simp only [PState.fuel]
      omega
    · have hs := sum_map_set GState.todo st.gor i _ (GState.exited (some e)) hg
      simp only [GState.todo] at hs
      simp only [PState.fuel]
      omega
    · have hs := sum_map_set GState.todo st.gor i _ (GState.exited (some e)) hg
      simp only [GState.todo] at hs
      simp only [PState.fuel]
      omega
  | recvDone =>
    obtain ⟨i, e, hc, _, _, rfl⟩ := step_recvDone ctx tasks st st' h
    simp only [PState.fuel, hc, Ctrl.todo]
    omega
  | recvCtx =>
    obtain ⟨i, e, hc, _, _, rfl⟩ := step_recvCtx ctx tasks st st' h
    simp only [PState.fuel, hc, Ctrl.todo]
    omega
  | recvPermit =>
    obtain ⟨i, hc, hlt, _, rfl⟩ := step_recvPermit ctx tasks st st' h
    simp only [PState.fuel, hc, Ctrl.todo]
    omega
  | cancel e =>
    obtain ⟨_, hn, rfl⟩ := step_cancel ctx tasks e st st' h
    simp only [PState.fuel, hn, Option.isNone_none, Option.isNone_some]
    simp

theorem fuel_runSched {σ ε : Type} (ctx : Context ε) (tasks : List (Task σ ε))
    (sched : List (Action ε)) :
    ∀ (st st' : PState σ ε), runSched ctx tasks sched st = some st' →
      st'.fuel tasks.length + sched.length ≤ st.fuel tasks.length := by
  induction sched with
  | nil =>
    intro st st' h
    simp only [runSched, Option.some.injEq] at h
    subst h
    simp
  | cons a rest ih =>
    intro st st' h
    obtain ⟨st1, hs, hr⟩ := runSched_cons ctx tasks a rest st st' h
    have h1 := fuel_step ctx tasks a st st1 hs
    have h2 := ih st1 st' hr
    simp only [List.length_cons]
    omega

theorem fuel_start {σ ε : Type} (ctx : Context ε) (tasks : List (Task σ ε)) (w : σ) :
    (PState.start ctx tasks w).fuel tasks.length ≤ 5 * tasks.length + 3 := by
  simp only [PState.fuel, PState.start, Ctrl.todo, List.map_nil, List.sum_nil]
  split <;> omega

theorem exists_unsignalled {ε : Type} (gor : List (GState ε)) (h : okExits gor < gor.length) :
    ∃ (k : Nat) (g : GState ε), gor[k]? = some g ∧ g.signalled = 0 := by
  induction gor with
  | nil => simp at h
  | cons x xs ih =>
    by_cases hx : x.signalled = 0
    · exact ⟨0, x, by simp, hx⟩
    · have hx1 : x.signalled = 1 := by
        rw [signalled_eq_one x hx]; rfl
      have : okExits xs < xs.length := by
        simp [okExits] at h ⊢
        omega
      obtain ⟨k, g, hk, hg⟩ := ih this
      exact ⟨k + 1, g, by simpa using hk, hg⟩

theorem progress_isSome {σ ε : Type} (ctx : Context ε) (tasks : List (Task σ ε))
    (st : PState σ ε) (hlive : Live tasks st) (hI : Inv tasks st)
    (hnf : ∀ r, st.ctrl ≠ Ctrl.finished r) :
    ∃ a, (∀ e, a ≠ Action.cancel e) ∧ (step ctx tasks a st).isSome = true := by
  have hci := hI.ctrl
  cases hc : st.ctrl with
  | finished r => exact absurd hc (hnf r)
  | launching j =>
    rw [hc] at hci
    simp only [ctrlInv] at hci
    by_cases hlt : j < tasks.length
    · have hav : 0 < st.sem.available := by omega
      refine ⟨Action.launch, (by intro e he; cases he), ?_⟩
      simp [step, hc, hlt, if_true, Semaphore.Wait, hav]
    · refine ⟨Action.advance, (by intro e he; cases he), ?_⟩
      simp [step, hc, hlt, if_false]
  | waiting i =>
    rw [hc] at hci
    simp only [ctrlInv] at hci
    by_cases hlt : i < tasks.length
    · cases hd : st.done with
      | some e =>
        refine ⟨Action.recvDone, (by intro e he; cases he), ?_⟩
        simp [step, hc, hd, hlt, if_true]
      | none =>
        by_cases hav : 0 < st.sem.available
        · refine ⟨Action.recvPermit, (by intro e he; cases he), ?_⟩
          simp [step, hc, hlt, if_true, Semaphore.Wait, hav]
        · obtain ⟨k, g, hk, hg⟩ := exists_unsignalled st.gor (by omega)
          have hklt := lt_length_of_getElem? _ _ _ hk
          cases g with
          | running =>
            obtain ⟨k1, f, hk1, hf, hsome⟩ := hlive hci.1 ⟨k, hk⟩
            cases hfw : f st.world with
            | none => rw [hfw] at hsome; cases hsome
            | some p =>
              obtain ⟨r, w'⟩ := p
              refine ⟨(Action.call k1), (by intro e he; cases he), ?_⟩
              simp [step, hk1, hf, hfw]
          | returned r =>
            cases r with
            | none =>
              have hcap : st.sem.available < st.sem.capacity := by
                rw [hI.cap]; omega
              refine ⟨(Action.report k), (by intro e he; cases he), ?_⟩
              simp [step, hk, Semaphore.Signal, hcap, if_true]
            | some e =>
              refine ⟨(Action.report k), (by intro e he; cases he), ?_⟩
              simp [step, hk, hd]
          | exited r =>
            cases r with
            | none => simp [GState.signalled] at hg
            | some e =>
              rcases hI.first k e hk with h1 | ⟨e', h2⟩
              · rw [hd] at h1; cases h1
              · rw [hc] at h2; cases h2
    · refine ⟨Action.advance, (by intro e he; cases he), ?_⟩
      simp [step, hc, hlt, if_false]

/-- A state in which the controller has not returned has an enabled step that
is not a cancellation, as long as one of the tasks not yet called returns in
the current world. -/
theorem progress {σ ε : Type} (ctx : Context ε) (tasks : List (Task σ ε))
    (st : PState σ ε) (hlive : Live tasks st) (hI : Inv tasks st)
    (hnf : ∀ r, st.ctrl ≠ Ctrl.finished r) :
    ∃ a st', (∀ e, a ≠ Action.cancel e) ∧ step ctx tasks a st = some st' := by
  obtain ⟨a, ha, hs⟩ := progress_isSome ctx tasks st hlive hI hnf
  obtain ⟨st', hst⟩ := Option.isSome_iff_exists.mp hs
  exact ⟨a, st', ha, hst⟩

/-- Tasks that return in every world are live in every state. -/
theorem Live_of_total {σ ε : Type} (tasks : List (Task σ ε))
    (htot : ∀ f ∈ tasks, ∀ s, (f s).isSome = true) (st : PState σ ε) : Live tasks st := by
  intro hlen hex
  obtain ⟨k, hk⟩ := hex
  have hkt : k < tasks.length := by
    have := lt_length_of_getElem? _ _ _ hk
    omega
  exact ⟨k, tasks[k], hk, List.getElem?_eq_getElem hkt,
    htot tasks[k] (List.getElem_mem hkt) st.world⟩

theorem runSched_append {σ ε : Type} (ctx : Context ε) (tasks : List (Task σ ε))
    (s1 s2 : List (Action ε)) :
    ∀ (st st1 : PState σ ε), runSched ctx tasks s1 st = some st1 →
      runSched ctx tasks (s1 ++ s2) st = runSched ctx tasks s2 st1 := by
  induction s1 with
  | nil =>
    intro st st1 h
    simp only [runSched, Option.some.injEq] at h
    subst h
    rfl
  | cons a rest ih =>
    intro st st1 h
    obtain ⟨st', hs, hr⟩ := runSched_cons ctx tasks a rest st st1 h
    simp only [List.cons_append, runSched, hs]
    exact ih st' st1 hr

/-- Every run in which the controller has not returned can be continued,
without any cancellation, to one in which it has, when the tasks are live in
the states the continuations of the run go through. -/
theorem exists_completion {σ ε : Type} (ctx : Context ε) (tasks : List (Task σ ε)) (w : σ)
    (sched : List (Action ε))
    (hlive : ∀ (rest : List (Action ε)) (st : PState σ ε), (∀ e, Action.cancel e ∉ rest) →
      runSched ctx tasks (sched ++ rest) (PState.start ctx tasks w) = some st → Live tasks st) :
    ∀ (m : Nat) (pre : List (Action ε)) (st : PState σ ε), (∀ e, Action.cancel e ∉ pre) →
      runSched ctx tasks (sched ++ pre) (PState.start ctx tasks w) = some st →
      st.fuel tasks.length ≤ m →
      ∃ rest st', (∀ e, Action.cancel e ∉ rest) ∧ runSched ctx tasks rest st = some st' ∧
        ∃ r, st'.ctrl = Ctrl.finished r := by
  intro m
  induction m with
  | zero =>
    intro pre st hpre hrun hm
    have hI := Inv_runSched ctx tasks _ _ st hrun (Inv_start ctx tasks w)
    by_cases hf : ∃ r, st.ctrl = Ctrl.finished r
    · exact ⟨[], st, by simp, rfl, hf⟩
    · obtain ⟨a, st1, _, hs⟩ :=
        progress ctx tasks st (hlive pre st hpre hrun) hI (fun r hr => hf ⟨r, hr⟩)
      have := fuel_step ctx tasks a st st1 hs
      omega
  | succ m ih =>
    intro pre st hpre hrun hm
    have hI := Inv_runSched ctx tasks _ _ st hrun (Inv_start ctx tasks w)
    by_cases hf : ∃ r, st.ctrl = Ctrl.finished r
    · exact ⟨[], st, by simp, rfl, hf⟩
    · obtain ⟨a, st1, ha, hs⟩ :=
        progress ctx tasks st (hlive pre st hpre hrun) hI (fun r hr => hf ⟨r, hr⟩)
      have hlt := fuel_step ctx tasks a st st1 hs
      have hpre1 : ∀ e, Action.cancel e ∉ pre ++ [a] := by
        intro e he
        rcases List.mem_append.mp he with h1 | h1
        · exact hpre e h1
        · rw [List.mem_singleton] at h1
          exact ha e h1.symm
      have hrun1 : runSched ctx tasks (sched ++ (pre ++ [a])) (PState.start ctx tasks w)
          = some st1 := by
        rw [← List.append_assoc, runSched_append ctx tasks (sched ++ pre) [a] _ st hrun]
        simp only [runSched, hs]
      obtain ⟨rest, st', hnc, hr, hfin⟩ := ih (pre ++ [a]) st1 hpre1 hrun1 (by omega)
      refine ⟨a :: rest, st', ?_, ?_, hfin⟩
      · intro e he
        rcases List.mem_cons.mp he with h1 | h1
        · exact ha e h1.symm
        · exact hnc e h1
      · simp only [runSched, hs]
        exact hr

theorem executeParallel_eq {σ ε : Type} (sched : List (Action ε)) (ctx : Context ε)
    (tasks : List (Task σ ε)) (w : σ) (st : PState σ ε) (r : Option ε)
    (h : runSched ctx tasks sched (PState.start ctx tasks w) = some st)
    (hr : st.ctrl = Ctrl.finished r) :
    executeParallel sched ctx tasks w = some (r, st.world) := by
  simp only [executeParallel, h, hr]

theorem executeParallel_some {σ ε : Type} (sched : List (Action ε)) (ctx : Context ε)
    (tasks : List (Task σ ε)) (w w' : σ) (r : Option ε)
    (h : executeParallel sched ctx tasks w = some (r, w')) :
    ∃ st, runSched ctx tasks sched (PState.start ctx tasks w) = some st ∧
      st.ctrl = Ctrl.finished r ∧ st.world = w' := by
  simp only [executeParallel] at h
  split at h
  · rename_i st hs
    split at h
    · rename_i r0 hc
      simp only [Option.some.injEq, Prod.mk.injEq] at h
      exact ⟨st, hs, by rw [hc, h.1], h.2⟩
    · cases h
  · cases h

end TaskEngine

/-! ## The parallel engine: the world -/

namespace TaskEngine

theorem resultAt_append_running {ε : Type} (gor : List (GState ε)) (i : Nat) :
    resultAt (gor ++ [GState.running]) i = resultAt gor i := by
  unfold resultAt
  by_cases hlt : i < gor.length
  · rw [List.getElem?_append_left hlt]
  · rw [List.getElem?_eq_none (l := gor) (by omega)]
    cases h : (gor ++ [GState.running])[i]? with
    | none => rfl
    | some g =>
      rcases getElem?_append_one_cases _ _ _ _ h with h1 | ⟨_, h2⟩
      · rw [List.getElem?_eq_none (by omega)] at h1; cases h1
      · subst h2; rfl

theorem resultAt_set_ne {ε : Type} (gor : List (GState ε)) (k i : Nat) (g : GState ε)
    (h : i ≠ k) : resultAt (gor.set k g) i = resultAt gor i := by
  unfold resultAt
  rw [List.getElem?_set_ne (fun h' => h h'.symm)]

theorem resultAt_set_self {ε : Type} (gor : List (GState ε)) (k : Nat) (g : GState ε)
    (h : k < gor.length) : resultAt (gor.set k g) k = g.result := by
  unfold resultAt
  rw [List.getElem?_set_self h]

theorem resultAt_of_getElem? {ε : Type} (gor : List (GState ε)) (k : Nat) (g : GState ε)
    (h : gor[k]? = some g) : resultAt gor k = g.result := by
  unfold resultAt
  rw [h]

theorem resultAt_set_same {ε : Type} (gor : List (GState ε)) (k : Nat) (g0 g : GState ε)
    (h : gor[k]? = some g0) (hr : g.result = g0.result) (i : Nat) :
    resultAt (gor.set k g) i = resultAt gor i := by
  by_cases hik : i = k
  · subst hik
    rw [resultAt_set_self _ _ _ (lt_length_of_getElem? _ _ _ h), resultAt_of_getElem? _ _ _ h, hr]
  · exact resultAt_set_ne _ _ _ _ hik

theorem Replays_congr {σ ε : Type} (tasks : List (Task σ ε)) (gor gor' : List (GState ε))
    (order : List Nat) :
    ∀ (s s' : σ), (∀ i ∈ order, resultAt gor' i = resultAt gor i) →
      Replays tasks gor order s s' → Replays tasks gor' order s s' := by
  induction order with
  | nil => intro s s' _ h; exact h
  | cons i rest ih =>
    intro s s' hres h
    obtain ⟨f, r, s1, hf, hfs, hr, hrest⟩ := h
    refine ⟨f, r, s1, hf, hfs, ?_, ?_⟩
    · rw [hres i (List.mem_cons_self _ _)]; exact hr
    · exact ih s1 s' (fun j hj => hres j (List.mem_cons_of_mem _ hj)) hrest

theorem Replays_snoc {σ ε : Type} (tasks : List (Task σ ε)) (gor : List (GState ε))
    (order : List Nat) (k : Nat) (f : Task σ ε) (r : Option ε) :
    ∀ (s s1 s2 : σ), Replays tasks gor order s s1 → tasks[k]? = some f →
      f s1 = some (r, s2) → resultAt gor k = some r →
      Replays tasks gor (order ++ [k]) s s2 := by
  induction order with
  | nil =>
    intro s s1 s2 h hf hfs hr
    have hs : s = s1 := h
    subst hs
    exact ⟨f, r, s2, hf, hfs, hr, rfl⟩
  | cons i rest ih =>
    intro s s1 s2 h hf hfs hr
    obtain ⟨f0, r0, s0, hf0, hfs0, hr0, hrest⟩ := h
    exact ⟨f0, r0, s0, hf0, hfs0, hr0, ih s0 s1 s2 hrest hf hfs hr⟩

theorem Replays_split {σ ε : Type} (tasks : List (Task σ ε)) (gor : List (GState ε))
    (order : List Nat) (i : Nat) :
    ∀ (s s' : σ), Replays tasks gor order s s' → i ∈ order →
      ∃ (pre post : List Nat) (f : Task σ ε) (r : Option ε) (s1 s2 : σ),
        order = pre ++ i :: post ∧ Replays tasks gor pre s s1 ∧ tasks[i]? = some f ∧
        f s1 = some (r, s2) ∧ resultAt gor i = some r ∧ Replays tasks gor post s2 s' := by
  induction order with
  | nil => intro s s' _ hi; cases hi
  | cons j rest ih =>
    intro s s' h hi
    obtain ⟨f0, r0, s0, hf0, hfs0, hr0, hrest⟩ := h
    by_cases hij : i = j
    · subst hij
      exact ⟨[], rest, f0, r0, s, s0, rfl, rfl, hf0, hfs0, hr0, hrest⟩
    · have hi' : i ∈ rest := by
        rcases List.mem_cons.mp hi with h1 | h1
        · exact absurd h1 hij
        · exact h1
      obtain ⟨pre, post, f, r, s1, s2, ho, hpre, hf, hfs, hr, hpost⟩ := ih s0 s' hrest hi'
      refine ⟨j :: pre, post, f, r, s1, s2, ?_, ?_, hf, hfs, hr, hpost⟩
      · rw [ho]; rfl
      · exact ⟨f0, r0, s0, hf0, hfs0, hr0, hpre⟩

theorem tracedFrom_getElem? {σ ε : Type} (ts : List (Task σ ε)) :
    ∀ (b i : Nat), (tracedFrom b ts)[i]? = (ts[i]?).map (probe (b + i)) := by
  induction ts with
  | nil => intro b i; simp [tracedFrom]
  | cons t rest ih =>
    intro b i
    cases i with
    | zero => simp [tracedFrom]
    | succ k =>
      simp only [tracedFrom, List.getElem?_cons_succ]
      rw [ih (b + 1) k]
      have : b + 1 + k = b + (k + 1) := by omega
      rw [this]

theorem Replays_traced {σ ε : Type} (ts : List (Task σ ε)) (gor : List (GState ε))
    (order : List Nat) :
    ∀ (w1 w2 : σ) (l1 l2 : List Nat), Replays (traced ts) gor order (w1, l1) (w2, l2) →
      l2 = l1 ++ order := by
  induction order with
  | nil =>
    intro w1 w2 l1 l2 h
    have : (w1, l1) = (w2, l2) := h
    simp only [Prod.mk.injEq] at this
    simp [this.2]
  | cons i rest ih =>
    intro w1 w2 l1 l2 h
    obtain ⟨f, r, s1, hf, hfs, _, hrest⟩ := h
    unfold traced at hf
    rw [tracedFrom_getElem?] at hf
    cases ht : ts[i]? with
    | none => rw [ht] at hf; cases hf
    | some t =>
      rw [ht] at hf
      simp only [Option.map_some', Option.some.injEq, Nat.zero_add] at hf
      subst hf
      simp only [probe] at hfs
      cases htw : t w1 with
      | none => rw [htw] at hfs; cases hfs
      | some p =>
        rw [htw] at hfs
        simp only [Option.some.injEq, Prod.mk.injEq] at hfs
        obtain ⟨_, hs1⟩ := hfs
        subst hs1
        have := ih p.2 w2 (l1 ++ [i]) l2 hrest
        rw [this]
        simp

theorem Hist_start {σ ε : Type} (ctx : Context ε) (tasks : List (Task σ ε)) (w : σ) :
    Hist tasks w (PState.start ctx tasks w) := by
  refine ⟨[], List.nodup_nil, ?_, rfl⟩
  intro i
  simp [PState.start, resultAt]

theorem Hist_step {σ ε : Type} (ctx : Context ε) (tasks : List (Task σ ε)) (w0 : σ)
    (a : Action ε) (st st' : PState σ ε) (h : step ctx tasks a st = some st')
    (hH : Hist tasks w0 st) : Hist tasks w0 st' := by
  obtain ⟨order, hnd, hmem, hrep⟩ := hH
  cases a with
  | launch =>
    obtain ⟨j, _, _, _, rfl⟩ := step_launch ctx tasks st st' h
    refine ⟨order, hnd, ?_, ?_⟩
    · intro i
      show i ∈ order ↔ (resultAt (st.gor ++ [GState.running]) i).isSome = true
      rw [resultAt_append_running]; exact hmem i
    · exact Replays_congr tasks st.gor _ order _ _
        (fun i _ => resultAt_append_running st.gor i) hrep
  | advance =>
    rcases step_advance ctx tasks st st' h with ⟨j, _, _, rfl⟩ | ⟨i, _, _, rfl⟩
    · exact ⟨order, hnd, hmem, hrep⟩
    · exact ⟨order, hnd, hmem, hrep⟩
  | call k =>
    obtain ⟨f, r, w', hg, hf, hfw, rfl⟩ := step_call ctx tasks k st st' h
    have hklt := lt_length_of_getElem? _ _ _ hg
    have hk : k ∉ order := by
      intro hin
      have := (hmem k).mp hin
      rw [resultAt_of_getElem? _ _ _ hg] at this
      cases this
    refine ⟨order ++ [k], ?_, ?_, ?_⟩
    · exact List.Nodup.append hnd (List.nodup_singleton k)
        (by
          intro x hx hx'
          rw [List.mem_singleton] at hx'
          subst hx'
          exact hk hx)
    · intro i
      show i ∈ order ++ [k] ↔ (resultAt (st.gor.set k (GState.returned r)) i).isSome = true
      by_cases hik : i = k
      · subst hik
        rw [resultAt_set_self _ _ _ hklt]
        simp [GState.result]
      · rw [resultAt_set_ne _ _ _ _ hik, List.mem_append, List.mem_singleton]
        constructor
        · rintro (h1 | h1)
          · exact (hmem i).mp h1
          · exact absurd h1 hik
        · intro h1
          exact Or.inl ((hmem i).mpr h1)
    · show Replays tasks (st.gor.set k (GState.returned r)) (order ++ [k]) w0 w'
      refine Replays_snoc tasks _ order k f r w0 st.world w' ?_ hf hfw ?_
      · exact Replays_congr tasks st.gor _ order _ _
          (fun i hi => resultAt_set_ne _ _ _ _ (fun hik => hk (hik ▸ hi))) hrep
      · rw [resultAt_set_self _ _ _ hklt]; rfl
  | report k =>
    rcases step_report ctx tasks k st st' h with ⟨hg, _, rfl⟩ | ⟨e, hg, _, rfl⟩ |
      ⟨e, e0, hg, _, rfl⟩
    · have hsame := resultAt_set_same st.gor k _ (GState.exited none) hg rfl
      refine ⟨order, hnd, ?_, Replays_congr tasks st.gor _ order _ _ (fun i _ => hsame i) hrep⟩
      intro i
      show i ∈ order ↔ (resultAt (st.gor.set k (GState.exited none)) i).isSome = true
      rw [hsame i]; exact hmem i
    · have hsame := resultAt_set_same st.gor k _ (GState.exited (some e)) hg rfl
      refine ⟨order, hnd, ?_, Replays_congr tasks st.gor _ order _ _ (fun i _ => hsame i) hrep⟩
      intro i
      show i ∈ order ↔ (resultAt (st.gor.set k (GState.exited (some e))) i).isSome = true
      rw [hsame i]; exact hmem i
    · have hsame := resultAt_set_same st.gor k _ (GState.exited (some e)) hg rfl
      refine ⟨order, hnd, ?_, Replays_congr tasks st.gor _ order _ _ (fun i _ => hsame i) hrep⟩
      intro i
      show i ∈ order ↔ (resultAt (st.gor.set k (GState.exited (some e))) i).isSome = true
      rw [hsame i]; exact hmem i
  | recvDone =>
    obtain ⟨i, e, _, _, _, rfl⟩ := step_recvDone ctx tasks st st' h
    exact ⟨order, hnd, hmem, hrep⟩
  | recvCtx =>
    obtain ⟨i, e, _, _, _, rfl⟩ := step_recvCtx ctx tasks st st' h
    exact ⟨order, hnd, hmem, hrep⟩
  | recvPermit =>
    obtain ⟨i, _, _, _, rfl⟩ := step_recvPermit ctx tasks st st' h
    exact ⟨order, hnd, hmem, hrep⟩
  | cancel e =>
    obtain ⟨_, _, rfl⟩ := step_cancel ctx tasks e st st' h
    exact ⟨order, hnd, hmem, hrep⟩

theorem Hist_runSched {σ ε : Type} (ctx : Context ε) (tasks : List (Task σ ε)) (w0 : σ)
    (sched : List (Action ε)) :
    ∀ (st st' : PState σ ε), runSched ctx tasks sched st = some st' →
      Hist tasks w0 st → Hist tasks w0 st' := by
  induction sched with
  | nil =>
    intro st st' h hH
    simp only [runSched, Option.some.injEq] at h
    subst h
    exact hH
  | cons a rest ih =>
    intro st st' h hH
    obtain ⟨st1, hs, hr⟩ := runSched_cons ctx tasks a rest st st' h
    exact ih st1 st' hr (Hist_step ctx tasks w0 a st st1 hs hH)

theorem perm_range_of_all_exited {ε : Type} (gor : List (GState ε)) (n : Nat)
    (order : List Nat) (hnd : order.Nodup)
    (hmem : ∀ i : Nat, i ∈ order ↔ (resultAt gor i).isSome = true)
    (hlen : gor.length = n)
    (hall : ∀ i : Nat, i < n → gor[i]? = some (GState.exited none)) :
    order.Perm (List.range n) := by
  rw [List.perm_ext_iff_of_nodup hnd (List.nodup_range n)]
  intro i
  rw [hmem i, List.mem_range]
  constructor
  · intro h
    by_contra hge
    unfold resultAt at h
    rw [List.getElem?_eq_none (by omega)] at h
    cases h
  · intro h
    rw [resultAt_of_getElem? _ _ _ (hall i h)]
    rfl

end TaskEngine

/-! ## The parallel engine: a task that waits for its sibling -/

namespace TaskEngine

theorem flag_step (ctx : Context Nat) (a : Action Nat) (st st' : PState Nat Nat)
    (h : step ctx [waitsForFlag, setsFlag] a st = some st')
    (hQ : (st.gor[1]? = some GState.running ∨ st.gor[1]? = none) ∨ 0 < st.world) :
    (st'.gor[1]? = some GState.running ∨ st'.gor[1]? = none) ∨ 0 < st'.world := by
  cases a with
  | launch =>
    obtain ⟨j, _, _, _, rfl⟩ := step_launch ctx _ st st' h
    rcases hQ with hQ | hQ
    · left
      show (st.gor ++ [GState.running])[1]? = some GState.running ∨
        (st.gor ++ [GState.running])[1]? = none
      cases hg : (st.gor ++ [GState.running])[1]? with
      | none => exact Or.inr rfl
      | some g =>
        rcases getElem?_append_one_cases _ _ _ _ hg with h1 | ⟨_, h2⟩
        · rcases hQ with h3 | h3
          · rw [h3] at h1; exact Or.inl h1.symm
          · rw [h3] at h1; cases h1
        · rw [h2]; exact Or.inl rfl
    · exact Or.inr hQ
  | advance =>
    rcases step_advance ctx _ st st' h with ⟨j, _, _, rfl⟩ | ⟨i, _, _, rfl⟩
    · exact hQ
    · exact hQ
  | call i =>
    obtain ⟨f, r, w', hg, hf, hfw, rfl⟩ := step_call ctx _ i st st' h
    right
    show 0 < w'
    cases i with
    | zero =>
      simp only [List.getElem?_cons_zero, Option.some.injEq] at hf
      subst hf
      unfold waitsForFlag at hfw
      split at hfw
      · simp only [Option.some.injEq, Prod.mk.injEq] at hfw
        omega
      · cases hfw
    | succ k =>
      cases k with
      | zero =>
        simp only [List.getElem?_cons_succ, List.getElem?_cons_zero, Option.some.injEq] at hf
        subst hf
        simp only [setsFlag, Option.some.injEq, Prod.mk.injEq] at hfw
        omega
      | succ m => simp at hf
  | report k =>
    have hkeep : ∀ g : GState Nat, (∃ r, st.gor[k]? = some (GState.returned r)) →
        ((st.gor.set k g)[1]? = some GState.running ∨ (st.gor.set k g)[1]? = none) ∨
          0 < st.world := by
      intro g hk
      obtain ⟨r, hk⟩ := hk
      rcases hQ with hQ | hQ
      · left
        by_cases hk1 : k = 1
        · subst hk1
          rcases hQ with h3 | h3
          · rw [h3] at hk; cases hk
          · rw [h3] at hk; cases hk
        · rw [List.getElem?_set_ne hk1]
          exact hQ
      · exact Or.inr hQ
    rcases step_report ctx _ k st st' h with ⟨hg, _, rfl⟩ | ⟨e, hg, _, rfl⟩ |
      ⟨e, e0, hg, _, rfl⟩
    · exact hkeep _ ⟨_, hg⟩
    · exact hkeep _ ⟨_, hg⟩
    · exact hkeep _ ⟨_, hg⟩
  | recvDone =>
    obtain ⟨i, e, _, _, _, rfl⟩ := step_recvDone ctx _ st st' h
    exact hQ
  | recvCtx =>
    obtain ⟨i, e, _, _, _, rfl⟩ := step_recvCtx ctx _ st st' h
    exact hQ
  | recvPermit =>
    obtain ⟨i, _, _, _, rfl⟩ := step_recvPermit ctx _ st st' h
    exact hQ
  | cancel e =>
    obtain ⟨_, _, rfl⟩ := step_cancel ctx _ e st st' h
    exact hQ

theorem flag_runSched (ctx : Context Nat) (sched : List (Action Nat)) :
    ∀ (st st' : PState Nat Nat), runSched ctx [waitsForFlag, setsFlag] sched st = some st' →
      ((st.gor[1]? = some GState.running ∨ st.gor[1]? = none) ∨ 0 < st.world) →
      ((st'.gor[1]? = some GState.running ∨ st'.gor[1]? = none) ∨ 0 < st'.world) := by
  induction sched with
  | nil =>
    intro st st' h hQ
    simp only [runSched, Option.some.injEq] at h
    subst h
    exact hQ
  | cons a rest ih =>
    intro st st' h hQ
    obtain ⟨st1, hs, hr⟩ := runSched_cons ctx _ a rest st st' h
    exact ih st1 st' hr (flag_step ctx a st st1 hs hQ)

/-- The two example tasks are live in every state of every run: the one that
waits is never the only one left before the counter is positive. -/
theorem Live_flag (ctx : Context Nat) (w : Nat) (sched : List (Action Nat))
    (st : PState Nat Nat)
    (h : runSched ctx [waitsForFlag, setsFlag] sched
      (PState.start ctx [waitsForFlag, setsFlag] w) = some st) :
    Live [waitsForFlag, setsFlag] st := by
  have hQ := flag_runSched ctx sched _ st h (Or.inl (Or.inr rfl))
  intro hlen hex
  obtain ⟨i, hi⟩ := hex
  rcases hQ with (h1 | h1) | h1
  · exact ⟨1, setsFlag, h1, rfl, rfl⟩
  · rw [List.getElem?_eq_none_iff] at h1
    simp only [List.length_cons, List.length_nil] at hlen
    omega
  · have hlt := lt_length_of_getElem? _ _ _ hi
    simp only [List.length_cons, List.length_nil] at hlen
    have hi2 : i = 0 ∨ i = 1 := by omega
    rcases hi2 with rfl | rfl
    · refine ⟨0, waitsForFlag, hi, rfl, ?_⟩
      simp [waitsForFlag, h1]
    · exact ⟨1, setsFlag, hi, rfl, rfl⟩

end TaskEngine

/-! ## Claims about the parallel engine -/

namespace TaskEngine

/-- C5: under a context that is not cancelled, for a run of `executeParallel`
that has returned `r` in a world: that world is what the calls `f()` made so
far, one after the other in some order without repetition, have made of the
world on entry, each task called in the world its predecessor left and
returning the error its goroutine holds. `r` is nil exactly when none of these
calls returned an error; when `r` is nil the calls are those of all `n` tasks,
each exactly once, and every goroutine has finished; when `r` is an error `e`,
`e` is the first error the channel `done` accepted and one of these calls
returned it. With tasks that record their position, the record on a nil return
holds every position exactly once. Moreover, provided that in the states met
some task not yet called returns, a run that has not returned is not stuck and
can be continued to one that has; and no run has more than `5 n + 3` steps. -/
theorem C5_executeParallel_result {σ ε : Type} (ctx : Context ε) (tasks : List (Task σ ε))
    (w : σ) (sched : List (Action ε))
    (hctx : ctx.err = none) (hnc : ∀ e, Action.cancel e ∉ sched) :
    (∀ (st : PState σ ε) (r : Option ε),
      runSched ctx tasks sched (PState.start ctx tasks w) = some st →
      st.ctrl = Ctrl.finished r →
        executeParallel sched ctx tasks w = some (r, st.world) ∧
        ∃ order : List Nat, order.Nodup ∧
          (∀ i : Nat, i ∈ order ↔ (resultAt st.gor i).isSome = true) ∧
          Replays tasks st.gor order w st.world ∧
          (r = none ↔ ∀ i ∈ order, resultAt st.gor i = some none) ∧
          (r = none → order.Perm (List.range tasks.length) ∧
            ∀ i : Nat, i < tasks.length → st.gor[i]? = some (GState.exited none)) ∧
          (∀ e, r = some e → st.sent.head? = some e ∧
            ∃ (i : Nat) (pre post : List Nat) (f : Task σ ε) (s1 s2 : σ),
              order = pre ++ i :: post ∧ Replays tasks st.gor pre w s1 ∧
              tasks[i]? = some f ∧ f s1 = some (some e, s2) ∧
              Replays tasks st.gor post s2 st.world ∧
              st.gor[i]? = some (GState.exited (some e)))) ∧
    (∀ (ts : List (Task σ ε)) (w0 : σ) (log : List Nat) (st : PState (σ × List Nat) ε),
      runSched ctx (traced ts) sched (PState.start ctx (traced ts) (w0, log)) = some st →
      st.ctrl = Ctrl.finished none →
        ∃ order : List Nat, order.Perm (List.range ts.length) ∧ st.world.2 = log ++ order) ∧
    ((∀ (rest : List (Action ε)) (st : PState σ ε), (∀ e, Action.cancel e ∉ rest) →
        runSched ctx tasks (sched ++ rest) (PState.start ctx tasks w) = some st →
        Live tasks st) →
      ∀ st : PState σ ε, runSched ctx tasks sched (PState.start ctx tasks w) = some st →
        ((∀ r, st.ctrl ≠ Ctrl.finished r) →
          ∃ a, (∀ e, a ≠ Action.cancel e) ∧ (step ctx tasks a st).isSome = true) ∧
        ∃ rest, (∀ e, Action.cancel e ∉ rest) ∧
          (executeParallel (sched ++ rest) ctx tasks w).isSome = true) ∧
    (∀ st : PState σ ε, runSched ctx tasks sched (PState.start ctx tasks w) = some st →
      sched.length ≤ 5 * tasks.length + 3) := by
  refine ⟨?_, ?_, ?_, ?_⟩
  · intro st r hrun hfin
    have hI := Inv_runSched ctx tasks sched _ st hrun (Inv_start ctx tasks w)
    have hce : st.ctxErr = none := by
      rw [ctxErr_runSched ctx tasks sched _ st hrun hnc]
      exact hctx
    obtain ⟨order, hnd, hmem, hrep⟩ :=
      Hist_runSched ctx tasks w sched _ st hrun (Hist_start ctx tasks w)
    have hnone : r = none → ∀ i : Nat, i < tasks.length →
        st.gor[i]? = some (GState.exited none) := by
      intro hr i hi
      subst hr
      have hci := hI.ctrl
      rw [hfin] at hci
      simp only [ctrlInv] at hci
      have hlt : i < st.gor.length := by omega
      have hg : st.gor[i]? = some st.gor[i] := List.getElem?_eq_getElem hlt
      rw [hg, all_exited_of_okExits st.gor (by omega) i _ hg]
    have hsome : ∀ e, r = some e → st.sent.head? = some e ∧
        ∃ (i : Nat) (pre post : List Nat) (f : Task σ ε) (s1 s2 : σ),
          order = pre ++ i :: post ∧ Replays tasks st.gor pre w s1 ∧
          tasks[i]? = some f ∧ f s1 = some (some e, s2) ∧
          Replays tasks st.gor post s2 st.world ∧
          st.gor[i]? = some (GState.exited (some e)) := by
      intro e hr
      subst hr
      constructor
      · rcases hI.sentFin e hfin with h1 | hx
        · exact h1
        · rw [hce] at hx; cases hx
      · rcases hI.fin e hfin with ⟨i, hi⟩ | hx
        · have hres : resultAt st.gor i = some (some e) := resultAt_of_getElem? _ _ _ hi
          have hin : i ∈ order := (hmem i).mpr (by rw [hres]; rfl)
          obtain ⟨pre, post, f, r1, s1, s2, ho, hpre, hf, hfs, hr1, hpost⟩ :=
            Replays_split tasks st.gor order i w st.world hrep hin
          rw [hres] at hr1
          have hr2 : r1 = some e := (Option.some.inj hr1).symm
          subst hr2
          exact ⟨i, pre, post, f, s1, s2, ho, hpre, hf, hfs, hpost, hi⟩
        · rw [hce] at hx; cases hx
    refine ⟨executeParallel_eq sched ctx tasks w st r hrun hfin, order, hnd, hmem, hrep, ?_, ?_,
      hsome⟩
    · constructor
      · intro hr i hi
        have hs := (hmem i).mp hi
        have hlt : i < tasks.length := by
          by_contra hge
          unfold resultAt at hs
          rw [List.getElem?_eq_none (by have := hI.len; omega)] at hs
          cases hs
        exact resultAt_of_getElem? _ _ _ (hnone hr i hlt)
      · intro hall
        cases r with
        | none => rfl
        | some e =>
          obtain ⟨_, i, pre, post, f, s1, s2, ho, _, _, _, _, hi⟩ := hsome e rfl
          have hin : i ∈ order := by
            rw [ho]
            exact List.mem_append_right _ (List.mem_cons_self _ _)
          have h1 := hall i hin
          rw [resultAt_of_getElem? _ _ _ hi] at h1
          cases h1
    · intro hr
      refine ⟨?_, hnone hr⟩
      have hci := hI.ctrl
      rw [hfin, hr] at hci
      simp only [ctrlInv] at hci
      exact perm_range_of_all_exited st.gor tasks.length order hnd hmem hci.1 (hnone hr)
  · intro ts w0 log st hrun hfin
    have hI := Inv_runSched ctx (traced ts) sched _ st hrun (Inv_start ctx (traced ts) (w0, log))
    obtain ⟨order, hnd, hmem, hrep⟩ :=
      Hist_runSched ctx (traced ts) (w0, log) sched _ st hrun (Hist_start ctx (traced ts) (w0, log))
    have hci := hI.ctrl
    rw [hfin] at hci
    simp only [ctrlInv] at hci
    have hlen : (traced ts).length = ts.length := tracedFrom_length ts 0
    have hall : ∀ i : Nat, i < (traced ts).length → st.gor[i]? = some (GState.exited none) := by
      intro i hi
      have hlt : i < st.gor.length := by omega
      have hg : st.gor[i]? = some st.gor[i] := List.getElem?_eq_getElem hlt
      rw [hg, all_exited_of_okExits st.gor (by omega) i _ hg]
    refine ⟨order, ?_, ?_⟩
    · rw [← hlen]
      exact perm_range_of_all_exited st.gor _ order hnd hmem hci.1 hall
    · exact Replays_traced ts st.gor order w0 st.world.1 log st.world.2 hrep
  · intro hlive st hrun
    obtain ⟨rest, st', hnc', hr, r, hfin⟩ :=
      exists_completion ctx tasks w sched hlive _ [] st (by simp)
        (by rw [List.append_nil]; exact hrun) (Nat.le_refl _)
    refine ⟨?_, rest, hnc', ?_⟩
    · intro hnf
      exact progress_isSome ctx tasks st
        (hlive [] st (by simp) (by rw [List.append_nil]; exact hrun))
        (Inv_runSched ctx tasks sched _ st hrun (Inv_start ctx tasks w)) hnf
    have happ := runSched_append ctx tasks sched rest _ st hrun
    rw [executeParallel_eq (sched ++ rest) ctx tasks w st' r (by rw [happ]; exact hr) hfin]
    rfl
  · intro st hrun
    have h1 := fuel_runSched ctx tasks sched _ st hrun
    have h2 := fuel_start ctx tasks w
    omega

/-- Two tasks on a counter under the background context: the first returns
only once the counter is positive, the second makes it so. In the run where
the second is called first the controller returns nil in world 1, after a call
of each task, and that world is the replay of these calls from world 0; the
tasks are live in every state, so every run of them can be completed. -/
theorem C5_witness :
    executeParallel
        [Action.launch, Action.launch, Action.advance, Action.call 1, Action.call 0,
         Action.report 0, Action.report 1, Action.recvPermit, Action.recvPermit, Action.advance]
        Context.background [waitsForFlag, setsFlag] 0 = some (none, 1) ∧
    (∃ order : List Nat, order.Perm (List.range 2) ∧
      Replays [waitsForFlag, setsFlag] [GState.exited none, GState.exited none] order 0 1) ∧
    ∃ rest : List (Action Nat), (∀ e, Action.cancel e ∉ rest) ∧
      (executeParallel
        ([Action.launch, Action.launch, Action.advance, Action.call 1, Action.call 0,
          Action.report 0, Action.report 1, Action.recvPermit, Action.recvPermit,
          Action.advance] ++ rest)
        Context.background [waitsForFlag, setsFlag] 0).isSome = true := by
  have h := C5_executeParallel_result Context.background [waitsForFlag, setsFlag] 0
    [Action.launch, Action.launch, Action.advance, Action.call 1, Action.call 0,
     Action.report 0, Action.report 1, Action.recvPermit, Action.recvPermit, Action.advance]
    rfl (by simp)
  have h1 := h.1
    { world := 1, sem := ⟨2, 0⟩, done := none, sent := [], ctxErr := none,
      gor := [GState.exited none, GState.exited none], ctrl := Ctrl.finished none }
    none rfl rfl
  obtain ⟨hex, order, _, _, hrep, _, hperm, _⟩ := h1
  refine ⟨hex, ⟨order, (hperm rfl).1, hrep⟩, ?_⟩
  exact (h.2.2.1 (fun rest st _ hrun => Live_flag Context.background 0 _ st hrun)
    { world := 1, sem := ⟨2, 0⟩, done := none, sent := [], ctxErr := none,
      gor := [GState.exited none, GState.exited none], ctrl := Ctrl.finished none }
    rfl).2

/-- C6, as stated, fails: with a bound, cancellable, not yet cancelled context,
a first task failing with 7 and a second one succeeding, in the run where the
controller receives the failure and returns it the context is still not
cancelled (`ctx.Err()` is nil, `Done` is not closed). -/
theorem C6_counterexample :
    (runSched (⟨true, none⟩ : Context Nat)
        [fun (s : Nat) => some (some 7, s), fun (s : Nat) => some (none, s)]
        [Action.launch, Action.launch, Action.advance, Action.call 0, Action.report 0,
         Action.recvDone]
        (PState.start ⟨true, none⟩
          [fun (s : Nat) => some (some 7, s), fun (s : Nat) => some (none, s)] 0)).map
        (fun st => (st.ctrl, st.ctxErr))
      = some (Ctrl.finished (some 7), none) ∧
    Run [Action.launch, Action.launch, Action.advance, Action.call 0, Action.report 0,
         Action.recvDone]
        [WithContext (some (⟨true, none⟩ : Context Nat)),
         Parallel [fun (s : Nat) => some (some 7, s), fun (s : Nat) => some (none, s)]] 0
      = some (some 7, 0) := by
  constructor <;> rfl

theorem Run_WithContext_Parallel {σ ε : Type} (sched : List (Action ε)) (ctx : Context ε)
    (a b : Task σ ε) (w : σ) :
    Run sched [WithContext (some ctx), Parallel [a, b]] w = executeParallel sched ctx [a, b] w := by
  show run sched (Parallel [a, b] (WithContext (some ctx) executionContext.zero)) w = _
  rw [run_no_continuation _ _ rfl rfl]
  rfl

/-- C6, amended: for `Parallel(a, b)` under a bound context that is not
cancelled on entry, where one task always fails with `ea` and the other always
succeeds, a run that has returned `r` returned `ea`, or else the error of the
context after somebody other than the engine cancelled it; the engine itself
never cancels the context: in a run without outside cancellation `ctx.Err()`
stays nil in every state and the result, also of `Run`, is `ea`. -/
theorem C6_parallel_failure_returned {σ ε : Type} (ctx : Context ε) (a b : Task σ ε) (ea : ε)
    (w : σ) (sched : List (Action ε)) (tasks : List (Task σ ε))
    (hctx : ctx.err = none)
    (ha : ∀ s, ∃ s', a s = some (some ea, s')) (hb : ∀ s, ∃ s', b s = some (none, s'))
    (ht : tasks = [a, b] ∨ tasks = [b, a]) :
    (∀ st : PState σ ε, runSched ctx tasks sched (PState.start ctx tasks w) = some st →
      (∀ r, st.ctrl = Ctrl.finished r → r = some ea ∨ (r ≠ none ∧ r = st.ctxErr)) ∧
      ((∀ e, Action.cancel e ∉ sched) →
        st.ctxErr = none ∧ ∀ r, st.ctrl = Ctrl.finished r → r = some ea)) ∧
    (∀ (r : Option ε) (w' : σ), (∀ e, Action.cancel e ∉ sched) →
      Run sched [WithContext (some ctx), Parallel tasks] w = some (r, w') → r = some ea) := by
  have hres : ∀ (i : Nat) (f : Task σ ε) (s s' : σ) (r : Option ε),
      tasks[i]? = some f → f s = some (r, s') → (i = 0 ∨ i = 1) ∧
        ((f = a ∧ r = some ea) ∨ (f = b ∧ r = none)) := by
    intro i f s s' r hf hfs
    have hi : i < 2 := by
      have := lt_length_of_getElem? _ _ _ hf
      rcases ht with rfl | rfl <;> simpa using this
    have hfab : f = a ∨ f = b := by
      have hmem : f ∈ tasks := by
        obtain ⟨hlt, hget⟩ := List.getElem?_eq_some.mp hf
        rw [← hget]
        exact List.getElem_mem hlt
      rcases ht with rfl | rfl <;> simp at hmem <;> tauto
    refine ⟨by omega, ?_⟩
    rcases hfab with rfl | rfl
    · left
      obtain ⟨s'', hs⟩ := ha s
      rw [hs] at hfs
      simp only [Option.some.injEq, Prod.mk.injEq] at hfs
      exact ⟨rfl, hfs.1.symm⟩
    · right
      obtain ⟨s'', hs⟩ := hb s
      rw [hs] at hfs
      simp only [Option.some.injEq, Prod.mk.injEq] at hfs
      exact ⟨rfl, hfs.1.symm⟩
  have hlen : tasks.length = 2 := by rcases ht with rfl | rfl <;> rfl
  have hamem : ∃ ia : Nat, ia < 2 ∧ tasks[ia]? = some a := by
    rcases ht with rfl | rfl
    · exact ⟨0, by omega, rfl⟩
    · exact ⟨1, by omega, rfl⟩
  have hfin : ∀ st : PState σ ε,
      runSched ctx tasks sched (PState.start ctx tasks w) = some st →
      ∀ r, st.ctrl = Ctrl.finished r → r = some ea ∨ (r ≠ none ∧ r = st.ctxErr) := by
    intro st hrun r hr
    have hI := Inv_runSched ctx tasks sched _ st hrun (Inv_start ctx tasks w)
    cases r with
    | none =>
      exfalso
      have hci := hI.ctrl
      rw [hr] at hci
      simp only [ctrlInv] at hci
      obtain ⟨ia, hia, hta⟩ := hamem
      have hlt : ia < st.gor.length := by omega
      have hg : st.gor[ia]? = some st.gor[ia] := List.getElem?_eq_getElem hlt
      have hex := all_exited_of_okExits st.gor (by omega) ia _ hg
      rw [hex] at hg
      obtain ⟨f, s, s', hf, hfs⟩ := hI.res ia _ none hg rfl
      rw [hta] at hf
      have hfa : a = f := Option.some.inj hf
      subst hfa
      obtain ⟨s'', hs⟩ := ha s
      rw [hs] at hfs
      simp at hfs
    | some e =>
      rcases hI.fin e hr with ⟨i, hi⟩ | hx
      · left
        obtain ⟨f, s, s', hf, hfs⟩ := hI.res i _ (some e) hi rfl
        rcases (hres i f s s' (some e) hf hfs).2 with ⟨_, h2⟩ | ⟨_, h2⟩
        · exact h2
        · cases h2
      · right
        exact ⟨by simp, hx.symm⟩
  have hquiet : ∀ st : PState σ ε,
      runSched ctx tasks sched (PState.start ctx tasks w) = some st →
      (∀ e, Action.cancel e ∉ sched) →
        st.ctxErr = none ∧ ∀ r, st.ctrl = Ctrl.finished r → r = some ea := by
    intro st hrun hnc
    have hce : st.ctxErr = none := by
      rw [ctxErr_runSched ctx tasks sched _ st hrun hnc]
      exact hctx
    refine ⟨hce, ?_⟩
    intro r hr
    rcases hfin st hrun r hr with h1 | ⟨h2, h3⟩
    · exact h1
    · rw [hce] at h3; exact absurd h3 h2
  refine ⟨fun st hrun => ⟨hfin st hrun, hquiet st hrun⟩, ?_⟩
  intro r w' hnc hrun
  have hex : executeParallel sched ctx tasks w = some (r, w') := by
    rcases ht with rfl | rfl
    · rw [← Run_WithContext_Parallel]; exact hrun
    · rw [← Run_WithContext_Parallel]; exact hrun
  obtain ⟨st, hst, hc, _⟩ := executeParallel_some sched ctx tasks w w' r hex
  exact (hquiet st hst hnc).2 r hc

/-- A first task failing with 7, a second one succeeding, a cancellable context
and the run where the controller receives the failure: at the end of it the
context is not cancelled. -/
theorem C6_witness :
    (runSched (⟨true, none⟩ : Context Nat)
        [fun (s : Nat) => some (some 7, s), fun (s : Nat) => some (none, s)]
        [Action.launch, Action.launch, Action.advance, Action.call 0, Action.report 0,
         Action.recvDone]
        (PState.start ⟨true, none⟩
          [fun (s : Nat) => some (some 7, s), fun (s : Nat) => some (none, s)] 0)).map
        (fun st => st.ctxErr)
      = some none :=
  congrArg some
    ((((C6_parallel_failure_returned (⟨true, none⟩ : Context Nat)
        (fun (s : Nat) => some (some 7, s)) (fun (s : Nat) => some (none, s)) 7 0
        [Action.launch, Action.launch, Action.advance, Action.call 0, Action.report 0,
         Action.recvDone]
        [fun (s : Nat) => some (some 7, s), fun (s : Nat) => some (none, s)]
        rfl (fun s => ⟨s, rfl⟩) (fun s => ⟨s, rfl⟩) (Or.inl rfl)).1
      { world := 0, sem := ⟨2, 0⟩, done := none, sent := [7], ctxErr := none,
        gor := [GState.exited (some 7), GState.running], ctrl := Ctrl.finished (some 7) }
      rfl).2 (by simp)).1)

end TaskEngine
